import Mathlib

/-!
# Symbol table of the plang front end (`src/symbols/symbols.c`)

The C code keeps symbols and contexts in heap objects linked by pointers.
The embedding below keeps two arenas, one of `symbol_t` records and one of
`symbol_context_t` records; a pointer is `Option Nat` (`none` is `NULL`,
`some a` is the object at index `a` of its arena).  Every function of
`symbols.c` becomes a function on the table state, returning in `Except Fault`
so that a failed `assert`, `fatal_error`, a read through a bad pointer and a
loop that never ends are all visible results.
-/

namespace Plang

/-! ## Data model (`include/symbols.h`) -/

/-- Result codes of the symbol table interface (`symbol_error_t`). -/
inductive symbol_error_t where
  | SYM_NO_ERROR
  | SYM_EXISTS
  | SYM_NOT_FOUND
  | SYM_CONTEXT_ERROR
  | SYM_ERROR
  deriving DecidableEq, Repr

/-- Numeric value of a result code: the enumeration starts at 300. -/
def symbol_error_t.toNat : symbol_error_t → Nat
  | .SYM_NO_ERROR => 300
  | .SYM_EXISTS => 301
  | .SYM_NOT_FOUND => 302
  | .SYM_CONTEXT_ERROR => 303
  | .SYM_ERROR => 304

/-- Enumerator `SYM_NO_ASSIGN_TYPE` of `assignment_type_t`. -/
def SYM_NO_ASSIGN_TYPE : Nat := 325
/-- Enumerator `SYM_INT_ASSIGN_TYPE` of `assignment_type_t`. -/
def SYM_INT_ASSIGN_TYPE : Nat := 326
/-- Enumerator `SYM_NO_NAME_TYPE` of `name_type_t`. -/
def SYM_NO_NAME_TYPE : Nat := 350
/-- Enumerator `SYM_ANON_NAME_TYPE` of `name_type_t`. -/
def SYM_ANON_NAME_TYPE : Nat := 356
/-- Enumerator `SYM_PUBLIC_SCOPE_TYPE` of `symbol_scope_t`. -/
def SYM_PUBLIC_SCOPE_TYPE : Nat := 375

/-- A C string: its bytes, without the terminating NUL. -/
abbrev CString := List Nat

/-- The record `symbol_t`.  The three enumeration fields hold the
enumerator's number (a zero-filled record holds 0, which is no enumerator);
`const_val` is the raw content of the value union, which `symbols.c` never
reads or writes. -/
structure symbol_t where
  name : Option CString
  name_type : Nat
  assign_type : Nat
  scope : Nat
  const_val : Nat
  left : Option Nat
  right : Option Nat
  context : Option Nat
  deriving DecidableEq, Repr

/-- The record `symbol_context_t`: `sym` is the tree of symbols of the
context, `prev` and `next` link the contexts. -/
structure symbol_context_t where
  sym : Option Nat
  prev : Option Nat
  next : Option Nat
  deriving DecidableEq, Repr

/-- The whole state of `symbols.c`: the two arenas and the three file-scope
variables `root_context`, `current_context` and `context_serial`. -/
structure Table where
  syms : List symbol_t
  ctxs : List symbol_context_t
  root_context : Option Nat
  current_context : Option Nat
  context_serial : Int
  deriving DecidableEq, Repr

/-- Ways in which a call does not return normally. -/
inductive Fault where
  | assertion   -- an `assert` failed
  | fatal       -- `fatal_error` was called
  | undefined   -- a read or write through a null or dangling pointer, or past a buffer
  | hang        -- a loop that never terminates
  deriving DecidableEq, Repr

instance {ε α : Type} [DecidableEq ε] [DecidableEq α] : DecidableEq (Except ε α)
  | .ok a, .ok b =>
    if h : a = b then isTrue (by rw [h]) else isFalse (by intro hc; cases hc; exact h rfl)
  | .error a, .error b =>
    if h : a = b then isTrue (by rw [h]) else isFalse (by intro hc; cases hc; exact h rfl)
  | .ok _, .error _ => isFalse (by intro hc; cases hc)
  | .error _, .ok _ => isFalse (by intro hc; cases hc)

/-- The table before `init_symbol_table`: nothing allocated, both pointers
null, the serial counter 0. -/
def Table.uninit : Table :=
  { syms := [], ctxs := [], root_context := none, current_context := none,
    context_serial := 0 }

/-! ## Library primitives used by the code -/

/-- The C library's `strcmp`: the sign of the first differing byte pair, a
proper prefix being smaller. -/
def strcmp : CString → CString → Int
  | [], [] => 0
  | [], _ :: _ => -1
  | _ :: _, [] => 1
  | a :: s, b :: t => if a < b then -1 else if b < a then 1 else strcmp s t

/-- The low `w` decimal digits of `k`, most significant first, as ASCII. -/
def decimal_digits : Nat → Nat → List Nat
  | 0, _ => []
  | w + 1, k => decimal_digits w (k / 10) ++ [48 + k % 10]

/-- The text `sprintf(buf, "%09d", v)` produces: at least 9 characters,
padded with zeros on the left, the sign first for a negative number. -/
def sprintf_09d (v : Int) : CString :=
  if 0 ≤ v then
    if v.toNat < 10 ^ 9 then decimal_digits 9 v.toNat
    else decimal_digits (Nat.log 10 v.toNat + 1) v.toNat
  else
    if (-v).toNat < 10 ^ 8 then 45 :: decimal_digits 8 (-v).toNat
    else 45 :: decimal_digits (Nat.log 10 (-v).toNat + 1) (-v).toNat

/-- Modelled from the spec: `ALLOC_DS(symbol_t)` comes from `utils/memory.h`,
which is not among the sources; the code relies on it returning a zero-filled
record (`create_symbol` never sets `left`, `right` or `context`). -/
def ALLOC_DS_symbol : symbol_t :=
  { name := none, name_type := 0, assign_type := 0, scope := 0, const_val := 0,
    left := none, right := none, context := none }

/-- Modelled from the spec: `ALLOC_DS(symbol_context_t)`, a zero-filled
context record (see `ALLOC_DS_symbol`). -/
def ALLOC_DS_context : symbol_context_t :=
  { sym := none, prev := none, next := none }

/-- The bytes of the name of the root symbol, "object". -/
def object_name : CString := [111, 98, 106, 101, 99, 116]

/-! ## The functions of `symbols.c` -/

/-- The function `create_symbol`: a new zero-filled symbol at the next free address,
holding a copy of `name` when it is not null. -/
def create_symbol (name : Option CString) (T : Table) : Nat × Table :=
  (T.syms.length, { T with syms := T.syms ++ [{ ALLOC_DS_symbol with name := name }] })

/-- The `while` loop of `store_symbol`.  `sym` is the symbol being stored,
`nm` its name, the last argument is `tmpsym`.  The loop works on the symbol
arena only.  `fuel` bounds the number of iterations. -/
def store_symbol_loop (syms : List symbol_t) (sym : Nat) (nm : CString) :
    Nat → Option Nat → Except Fault (symbol_error_t × List symbol_t)
  | _, none => .error .fatal
  | 0, some _ => .error .hang
  | fuel + 1, some a =>
    match syms[a]? with
    | none => .error .undefined
    | some t =>
      match t.name with
      | none => .error .undefined
      | some tn =>
        let cmp := strcmp nm tn
        if cmp = 0 then .ok (.SYM_EXISTS, syms)
        else if cmp < 0 then
          match t.left with
          | none => .ok (.SYM_NO_ERROR, syms.set a { t with left := some sym })
          | some l => store_symbol_loop syms sym nm fuel (some l)
        else
          match t.right with
          | none => .ok (.SYM_NO_ERROR, syms.set a { t with right := some sym })
          | some r => store_symbol_loop syms sym nm fuel (some r)

/-- The function `store_symbol`.  The loop gets one iteration more than
there are symbols allocated: a walk that needs more has visited some symbol
twice and, the loop changing nothing before it returns, never ends. -/
def store_symbol (sym : Option Nat) (T : Table) : Except Fault (symbol_error_t × Table) :=
  match sym with
  | none => .error .assertion
  | some p =>
    match T.syms[p]? with
    | none => .error .undefined
    | some s =>
      match s.name with
      | none => .error .assertion
      | some nm =>
        match T.current_context with
        | none => .error .assertion
        | some c =>
          match T.ctxs[c]? with
          | none => .error .undefined
          | some ctx =>
            match ctx.sym with
            | none =>
              .ok (.SYM_NO_ERROR, { T with ctxs := T.ctxs.set c { ctx with sym := some p } })
            | some r =>
              match store_symbol_loop T.syms p nm (T.syms.length + 1) (some r) with
              | .error e => .error e
              | .ok (e, syms1) => .ok (e, { T with syms := syms1 })

/-- The `while` loop of `find_symbol`; the last argument is `retv`. -/
def find_symbol_loop (syms : List symbol_t) (name : CString) :
    Nat → Option Nat → Except Fault (Option Nat)
  | _, none => .ok none
  | 0, some _ => .error .hang
  | fuel + 1, some a =>
    match syms[a]? with
    | none => .error .undefined
    | some t =>
      match t.name with
      | none => .error .undefined
      | some tn =>
        let cmp := strcmp name tn
        if cmp = 0 then .ok (some a)
        else find_symbol_loop syms name fuel (if cmp < 0 then t.left else t.right)

/-- The function `find_symbol`: the search in the store of the current context,
with one iteration more than there are symbols allocated (see `store_symbol`). -/
def find_symbol (name : Option CString) (T : Table) : Except Fault (Option Nat) :=
  match name with
  | none => .error .assertion
  | some nm =>
    match T.current_context with
    | none => .error .assertion
    | some c =>
      match T.ctxs[c]? with
      | none => .error .undefined
      | some ctx => find_symbol_loop T.syms nm (T.syms.length + 1) ctx.sym

/-- The function `add_context`: a new context record is attached to `sym`, linked
after the current context and made current. -/
def add_context (sym : Option Nat) (T : Table) : Except Fault Table :=
  match T.current_context with
  | none => .error .assertion
  | some c =>
    match sym with
    | none => .error .assertion
    | some p =>
      match T.syms[p]? with
      | none => .error .undefined
      | some s =>
        match s.context with
        | some _ => .error .assertion
        | none =>
          match T.ctxs[c]? with
          | none => .error .undefined
          | some cur =>
            let cont := T.ctxs.length
            .ok { T with
                  syms := T.syms.set p { s with context := some cont }
                  ctxs := (T.ctxs.set c { cur with next := some cont })
                            ++ [{ ALLOC_DS_context with prev := some c }]
                  current_context := some cont }

/-- The function `open_symbol_context`.  The diagnostic printed by `syntax(...)` is
not part of the state.  `tbuf` has room for 9 characters and the NUL. -/
def open_symbol_context (name : Option CString) (T : Table) :
    Except Fault (symbol_error_t × Table) :=
  match name with
  | some nm =>
    match find_symbol (some nm) T with
    | .error e => .error e
    | .ok none => .ok (.SYM_NOT_FOUND, T)
    | .ok (some p) =>
      match add_context (some p) T with
      | .error e => .error e
      | .ok T1 => .ok (.SYM_NO_ERROR, T1)
  | none =>
    let tbuf := sprintf_09d T.context_serial
    if 9 < tbuf.length then .error .undefined
    else
      let T0 := { T with context_serial := T.context_serial + 1 }
      let (p, T1) := create_symbol (some tbuf) T0
      match store_symbol (some p) T1 with
      | .error e => .error e
      | .ok (_, T2) =>
        match add_context (some p) T2 with
        | .error e => .error e
        | .ok T3 => .ok (.SYM_NO_ERROR, T3)

/-- The function `close_symbol_context`. -/
def close_symbol_context (T : Table) : Except Fault (symbol_error_t × Table) :=
  match T.current_context with
  | none => .error .assertion
  | some c =>
    match T.ctxs[c]? with
    | none => .error .undefined
    | some cur =>
      match cur.prev with
      | none => .error .assertion
      | some pc =>
        match T.ctxs[pc]? with
        | none => .error .undefined
        | some prev =>
          match prev.sym with
          | none => .error .undefined
          | some sp =>
            match T.syms[sp]? with
            | none => .error .undefined
            | some sym =>
              match sym.name with
              | none => .error .undefined
              | some nm =>
                if strcmp nm object_name = 0 then .ok (.SYM_CONTEXT_ERROR, T)
                else .ok (.SYM_NO_ERROR,
                          { T with current_context := some pc, context_serial := 0 })

/-- The function `init_symbol_table`.  Registering `destroy_table` with `atexit` has
no effect before the process ends. -/
def init_symbol_table (T : Table) : Except Fault Table :=
  match T.root_context with
  | some _ => .error .assertion
  | none =>
    match T.current_context with
    | some _ => .error .assertion
    | none =>
      let (p, T1) := create_symbol (some object_name) T
      match T1.syms[p]? with
      | none => .error .undefined
      | some s =>
        let cont := T1.ctxs.length
        .ok { T1 with
              syms := T1.syms.set p { s with name_type := SYM_NO_NAME_TYPE
                                             assign_type := SYM_NO_ASSIGN_TYPE
                                             scope := SYM_PUBLIC_SCOPE_TYPE
                                             context := some cont }
              ctxs := T1.ctxs ++ [ALLOC_DS_context]
              root_context := some p
              current_context := some cont }

/-- The function `get_symbol_context`. -/
def get_symbol_context (T : Table) : Except Fault (Option Nat) :=
  match T.current_context with
  | none => .error .undefined
  | some c =>
    match T.ctxs[c]? with
    | none => .error .undefined
    | some cur =>
      match cur.prev with
      | none => .error .undefined
      | some pc =>
        match T.ctxs[pc]? with
        | none => .error .undefined
        | some prev => .ok prev.sym

/-! ## Reading a store -/

/-- In-order traversal (left subtree, node, right subtree) of the symbols
below a pointer: the address and the name of each symbol visited.  The
result is `none` when a pointer dangles, a name is null, or the walk goes
deeper than `fuel` links. -/
def inorder (syms : List symbol_t) : Nat → Option Nat → Option (List (Nat × CString))
  | _, none => some []
  | 0, some _ => none
  | fuel + 1, some a =>
    match syms[a]? with
    | none => none
    | some t =>
      match t.name with
      | none => none
      | some n =>
        match inorder syms fuel t.left, inorder syms fuel t.right with
        | some l, some r => some (l ++ (a, n) :: r)
        | _, _ => none

/-- In-order traversal of the store of context `c`. -/
def ctx_inorder (T : Table) (c : Nat) : Option (List (Nat × CString)) :=
  match T.ctxs[c]? with
  | none => none
  | some ctx => inorder T.syms T.syms.length ctx.sym

/-- In-order traversal of the store of the current context. -/
def store_inorder (T : Table) : Option (List (Nat × CString)) :=
  match T.current_context with
  | none => none
  | some c => ctx_inorder T c

/-- The names of a traversal are in strictly ascending `strcmp` order: each
name is below every later one (which, the order being transitive, says no
more than that each name is below the next, see `ascending_iff_chain`). -/
def ascending (l : List (Nat × CString)) : Prop :=
  l.Pairwise (fun x y => strcmp x.2 y.2 < 0)

instance (l : List (Nat × CString)) : Decidable (ascending l) := by
  unfold ascending; infer_instance

/-- The store of the current context is a binary search tree: its in-order
traversal exists and is strictly ascending. -/
def bst_ordered (T : Table) : Prop :=
  ∃ l, store_inorder T = some l ∧ ascending l

/-- What the tests do with each name of a list in turn: `create_symbol`,
then `store_symbol` of the new symbol, the result code being dropped. -/
def store_names (T : Table) : List CString → Except Fault Table
  | [] => .ok T
  | n :: ns =>
    match store_symbol (some (create_symbol (some n) T).1) (create_symbol (some n) T).2 with
    | .error e => .error e
    | .ok (_, T1) => store_names T1 ns

/-- The bytes of an ASCII string literal. -/
def ascii (s : String) : CString := s.toList.map Char.toNat

/-! ## The tree a store denotes -/

/-- A finite binary tree of symbols, each with its address and name. -/
inductive Tree where
  | leaf
  | node (l : Tree) (a : Nat) (n : CString) (r : Tree)
  deriving DecidableEq, Repr

/-- In-order list of a tree. -/
def Tree.toList : Tree → List (Nat × CString)
  | .leaf => []
  | .node l a n r => l.toList ++ (a, n) :: r.toList

/-- Number of nodes on the longest branch. -/
def Tree.height : Tree → Nat
  | .leaf => 0
  | .node l _ _ r => max l.height r.height + 1

/-- The search of `find_symbol`, on a tree. -/
def Tree.find (nm : CString) : Tree → Option Nat
  | .leaf => none
  | .node l a n r =>
    if strcmp nm n = 0 then some a
    else if strcmp nm n < 0 then l.find nm else r.find nm

/-- The insertion of `store_symbol`, on a tree. -/
def Tree.insert (p : Nat) (nm : CString) : Tree → Tree
  | .leaf => .node .leaf p nm .leaf
  | .node l a n r =>
    if strcmp nm n = 0 then .node l a n r
    else if strcmp nm n < 0 then .node (l.insert p nm) a n r
    else .node l a n (r.insert p nm)

/-- The symbols reachable from pointer `p` through `left` and `right` form
the tree `t`. -/
def Shape (syms : List symbol_t) : Option Nat → Tree → Prop
  | p, .leaf => p = none
  | p, .node l a n r =>
    p = some a ∧ ∃ s, syms[a]? = some s ∧ s.name = some n ∧
      Shape syms s.left l ∧ Shape syms s.right r

/-- Addresses of the symbols of a tree, in order. -/
def Tree.addrs (t : Tree) : List Nat := t.toList.map Prod.fst

/-! ## The tables of the tests -/

/-- The names stored first by `tests/symbols_test/store_symbols`. -/
def store_test_names : List CString :=
  ["symbol01", "symbol02", "symbol03", "symbol04", "symbol05", "symbol06", "symbol07",
   "symbol08", "symbol09", "symbol10", "symbol11", "symbol12", "symbol13", "symbol14",
   "symbol15", "symbol16", "symbol17", "symbol18", "symbol19", "symbol20"].map ascii

/-- The names stored by `tests/symbols_test/resolve_symbols` (`strs1` of the
other test). -/
def resolve_test_names : List CString :=
  ["asdf", "qwer", "werwe", "rewrew", "dfgddfg", "234908", "ewirou", "poipoi", "lkjlkj",
   "fkjgjh", "sdfkjhlj", "dsfkjl", "293847", "sdflkjsd"].map ascii

/-- The table right after `init_symbol_table`. -/
def init_table : Table :=
  match init_symbol_table Table.uninit with
  | .ok T => T
  | .error _ => Table.uninit

/-- The table after the names are created and stored (the uninitialized
table when that faults). -/
def stored (T : Table) (names : List CString) : Table :=
  match store_names T names with
  | .ok T1 => T1
  | .error _ => Table.uninit

/-- The table of a test after its first loop: `init_symbol_table`, then every
name created and stored. -/
def test_table (names : List CString) : Table := stored init_table names

/-- One call of the interface, as the tests make them. -/
inductive Call where
  | store (name : CString)
  | open_context (name : Option CString)
  | close_context
  deriving DecidableEq, Repr

/-- The effect of one call: `store n` is `store_symbol(create_symbol(n))`,
the other two are `open_symbol_context` and `close_symbol_context`. -/
def Call.run (T : Table) : Call → Except Fault (symbol_error_t × Table)
  | .store n => store_symbol (some (create_symbol (some n) T).1) (create_symbol (some n) T).2
  | .open_context n => open_symbol_context n T
  | .close_context => close_symbol_context T

/-- A sequence of calls, with the codes they return; the first fault ends
the run. -/
def run_calls (T : Table) : List Call → Except Fault (List symbol_error_t × Table)
  | [] => .ok ([], T)
  | c :: cs =>
    match c.run T with
    | .error e => .error e
    | .ok (r, T1) =>
      match run_calls T1 cs with
      | .error e => .error e
      | .ok (rs, T2) => .ok (r :: rs, T2)

/-- The table a run ends in (the uninitialized table when it faults). -/
def table_of {α : Type} : Except Fault (α × Table) → Table
  | .ok (_, T) => T
  | .error _ => Table.uninit

/-- The table after `init_symbol_table`, storing "a" and opening a context
on "a": the current context is the one of "a", its parent the root context. -/
def close_test_table : Table :=
  table_of (run_calls init_table [.store (ascii "a"), .open_context (some (ascii "a"))])

/-- The table `close_test_table` after storing "object" in the context of
"a" and opening a context on it. -/
def close_test_table_2 : Table :=
  table_of (run_calls close_test_table [.store object_name, .open_context (some object_name)])

/-- The table after `init_symbol_table`, storing "a", opening a context on
"a" and storing "x" there: the current context is the one of "a", a context
that is not the root, and its store holds "x". -/
def reopen_test_table : Table :=
  table_of (run_calls init_table
    [.store (ascii "a"), .open_context (some (ascii "a")), .store (ascii "x")])

/-- The table `reopen_test_table` after a context is opened on "x". -/
def reopen_test_table_1 : Table :=
  table_of (open_symbol_context (some (ascii "x")) reopen_test_table)

/-- The table `reopen_test_table_1` after "y" is stored in the context of "x". -/
def reopen_test_table_2 : Table := stored reopen_test_table_1 [ascii "y"]

/-- The table `reopen_test_table_2` after the context of "x" is closed. -/
def reopen_test_table_3 : Table := table_of (close_symbol_context reopen_test_table_2)

/-- The table after `init_symbol_table`, storing "a" and "n" and opening a
context on "a": the store of the current context is empty, the store of its
parent holds "n". -/
def ancestor_test_table : Table :=
  table_of (run_calls init_table
    [.store (ascii "a"), .store (ascii "n"), .open_context (some (ascii "a"))])

/-- The table after `init_symbol_table`, storing "x", opening a context on
"x", opening an anonymous context there and closing it: the context of "x"
is current, its store holds the anonymous symbol "000000000", and the serial
counter is back at 0. -/
def anon_test_table : Table :=
  table_of (run_calls init_table
    [.store (ascii "x"), .open_context (some (ascii "x")), .open_context none,
     .close_context])

/-- The table `anon_test_table` after one more anonymous context is opened. -/
def anon_test_table_1 : Table := table_of (open_symbol_context none anon_test_table)

/-- The table `anon_test_table_1` after that context is closed. -/
def anon_test_table_2 : Table := table_of (close_symbol_context anon_test_table_1)

/-- The number a string of decimal digits denotes. -/
def decimal_value (s : CString) : Nat :=
  s.foldl (fun acc d => 10 * acc + (d - 48)) 0

/-- The in-order traversal of the store after the names of
`resolve_test_names` are stored: address and name of each symbol. -/
def resolve_test_inorder : List (Nat × CString) :=
  [(6, ascii "234908"), (13, ascii "293847"), (1, ascii "asdf"), (5, ascii "dfgddfg"),
   (12, ascii "dsfkjl"), (7, ascii "ewirou"), (10, ascii "fkjgjh"), (9, ascii "lkjlkj"),
   (8, ascii "poipoi"), (2, ascii "qwer"), (4, ascii "rewrew"), (11, ascii "sdfkjhlj"),
   (14, ascii "sdflkjsd"), (3, ascii "werwe")]

/-- The table of the test `resolve_symbols` after a symbol "zzzz" is
created and not yet stored. -/
def fresh_test_table : Table :=
  (create_symbol (some (ascii "zzzz")) (test_table resolve_test_names)).2

/-- The table right after `init_symbol_table`, with the serial counter at 41. -/
def serial_test_table : Table := { init_table with context_serial := 41 }

/-- What a run of stores into the current context, whose store had the
traversal `l`, leaves alone: the three file-scope variables, the number of
contexts, every context but the current one, the `prev` and `next` links of
every context, every symbol allocated before that is not in the store, and
the name and nested context of every symbol. -/
def StoreFrame (T T1 : Table) (l : List (Nat × CString)) : Prop :=
  T1.current_context = T.current_context ∧ T1.root_context = T.root_context ∧
  T1.context_serial = T.context_serial ∧ T1.ctxs.length = T.ctxs.length ∧
  T.syms.length ≤ T1.syms.length ∧
  (∀ c, T.current_context ≠ some c → T1.ctxs[c]? = T.ctxs[c]?) ∧
  (∀ (c : Nat) (x : symbol_context_t), T.ctxs[c]? = some x →
    ∃ x1, T1.ctxs[c]? = some x1 ∧ x1.prev = x.prev ∧ x1.next = x.next) ∧
  (∀ q, q < T.syms.length → q ∉ l.map Prod.fst → T1.syms[q]? = T.syms[q]?) ∧
  (∀ (q : Nat) (s : symbol_t), T.syms[q]? = some s →
    ∃ s1, T1.syms[q]? = some s1 ∧ s1.name = s.name ∧ s1.context = s.context)


/-- Two symbol arenas agree on the names and links of what the first holds. -/
def LinksAgree (syms syms1 : List symbol_t) : Prop :=
  ∀ (a : Nat) (s : symbol_t), syms[a]? = some s →
    ∃ s1, syms1[a]? = some s1 ∧ s1.name = s.name ∧ s1.left = s.left ∧ s1.right = s.right

/-- The table after `init_symbol_table`, storing "object" and opening a
context on it: the parent of the current context is the root context, and the
first symbol of the root store is named "object". -/
def object_test_table : Table :=
  table_of (run_calls init_table [.store object_name, .open_context (some object_name)])

/-- The table `object_test_table` with the serial counter at 7. -/
def failed_close_table : Table := { object_test_table with context_serial := 7 }

/-- The table after `init_symbol_table`, storing "x", opening a context on
"x" and opening an anonymous context there: `anon_test_table` before its
close. -/
def anon_open_table : Table :=
  table_of (run_calls init_table
    [.store (ascii "x"), .open_context (some (ascii "x")), .open_context none])

/-- The table after `init_symbol_table` and `open_symbol_context(NULL)`. -/
def inner_test_table_1 : Table := table_of (open_symbol_context none init_table)

/-- The table `inner_test_table_1` after "inner1" is stored in the anonymous
context. -/
def inner_test_table_2 : Table := stored inner_test_table_1 [ascii "inner1"]

/-- The table `inner_test_table_2` after the anonymous context is closed. -/
def inner_test_table_3 : Table := table_of (close_symbol_context inner_test_table_2)

/-- The table right after `init_symbol_table`, with a symbol whose name is
the empty string created and not yet stored. -/
def empty_name_table : Table := (create_symbol (some []) init_table).2

/-- The table after `init_symbol_table`, storing "m" and "n" and opening a
context on "n". -/
def owner_test_table : Table :=
  table_of (run_calls init_table
    [.store (ascii "m"), .store (ascii "n"), .open_context (some (ascii "n"))])

/-! ## The resolver (`symbols/resolver.c`) -/

/-- What a call hands back: the value of a `return` statement, or nothing
when the closing brace of the function is reached without one (a caller that
uses such a result has undefined behaviour). -/
inductive Returned (α : Type) where
  | value (a : α)
  | nothing
  deriving DecidableEq, Repr

/-- The state of `resolver.c`, one variable for each name its functions read
or write.  The file declares `sym_stack` alone, and `push_sym_stack` fills it;
`pop_sym_stack` and `peek_sym_stack` name `symbol_stack`, and `close_resolver`
names `current_context` (static in `symbols.c`): the file declares neither.
Each function below works on the names its own text has.  The stacks are
listed from their top. -/
structure Resolver where
  sym_stack : List (Option Nat)
  symbol_stack : List (Option Nat)
  current_context : Option Nat
  deriving DecidableEq, Repr

/-- The function `pop_sym_stack`: it tests, reads and assigns `symbol_stack`,
as its text does, and never `sym_stack`. -/
def pop_sym_stack (R : Resolver) : Except Fault (Option Nat × Resolver) :=
  match R.symbol_stack with
  | [] => .ok (none, R)
  | none :: _ => .error .assertion
  | some p :: rest => .ok (some p, { R with symbol_stack := rest })

/-- The `while` loop of `clear_sym_stack`: pop until a pop returns null. -/
def clear_sym_stack_loop : Nat → Resolver → Except Fault Resolver
  | 0, _ => .error .hang
  | fuel + 1, R =>
    match pop_sym_stack R with
    | .error e => .error e
    | .ok (none, R1) => .ok R1
    | .ok (some _, R1) => clear_sym_stack_loop fuel R1

/-- The function `clear_sym_stack`.  The loop gets one iteration more than
the stack that `pop_sym_stack` works on has entries: each iteration but the
last removes one. -/
def clear_sym_stack (R : Resolver) : Except Fault Resolver :=
  clear_sym_stack_loop (R.symbol_stack.length + 1) R

/-- The function `open_resolver`: its body is empty, so it changes nothing
and reaches its closing brace without a `return`. -/
def open_resolver (_name : Option CString) (R : Resolver) : Returned (Option Nat) × Resolver :=
  (.nothing, R)

/-- The function `resolve_symbol`: its body is empty as well. -/
def resolve_symbol (_name : Option CString) (R : Resolver) :
    Returned (Option Nat) × Resolver :=
  (.nothing, R)

/-- The function `close_resolver`.  Its body is the call `clear_sym_stack()`
and the assignment `current_context = NULL;`, with no `;` between the two and
no `return` after them; the two are taken in the order of the text. -/
def close_resolver (R : Resolver) : Except Fault (Returned (Option Nat) × Resolver) :=
  match clear_sym_stack R with
  | .error e => .error e
  | .ok R1 => .ok (.nothing, { R1 with current_context := none })

/-- The resolver before any resolution: both stacks empty, null context. -/
def Resolver.idle : Resolver :=
  { sym_stack := [], symbol_stack := [], current_context := none }

/-- The table with contexts root, A (of "a") and B (of "b"), where "x" is
in the store of A only and B is current. -/
def resolver_test_table : Table :=
  table_of (run_calls init_table
    [.store (ascii "a"), .open_context (some (ascii "a")), .store (ascii "x"),
     .store (ascii "b"), .open_context (some (ascii "b"))])

/-- One step of a caller of `symbols.c`: `create_symbol`, `store_symbol` of
any pointer, `open_symbol_context`, `close_symbol_context`. -/
inductive Step where
  | create (name : Option CString)
  | store (sym : Option Nat)
  | open_context (name : Option CString)
  | close_context
  deriving DecidableEq, Repr

/-- The table after one step; the code a call returns is dropped. -/
def Step.run (T : Table) : Step → Except Fault Table
  | .create n => .ok (create_symbol n T).2
  | .store p =>
    match store_symbol p T with
    | .error e => .error e
    | .ok (_, T1) => .ok T1
  | .open_context n =>
    match open_symbol_context n T with
    | .error e => .error e
    | .ok (_, T1) => .ok T1
  | .close_context =>
    match close_symbol_context T with
    | .error e => .error e
    | .ok (_, T1) => .ok T1

/-- The table after a sequence of steps; the first fault (a failed
assertion among them) ends the run. -/
def run_steps (T : Table) : List Step → Except Fault Table
  | [] => .ok T
  | st :: rest =>
    match st.run T with
    | .error e => .error e
    | .ok T1 => run_steps T1 rest

/-- The contexts met by following `prev` from context `c` until a context
with a null `prev`, `c` first; `none` when a pointer dangles or the walk takes
more than `fuel` contexts. -/
def prev_chain (ctxs : List symbol_context_t) : Nat → Nat → Option (List Nat)
  | 0, _ => none
  | fuel + 1, c =>
    match ctxs[c]? with
    | none => none
    | some x =>
      match x.prev with
      | none => some [c]
      | some p =>
        match prev_chain ctxs fuel p with
        | none => none
        | some l => some (c :: l)

/-- The chain of contexts from the current one along `prev`.  The walk may
take as many contexts as are allocated: a longer one meets a context twice
and never ends. -/
def context_chain (T : Table) : Option (List Nat) :=
  match T.current_context with
  | none => none
  | some c => prev_chain T.ctxs T.ctxs.length c

/-- The invariant of the context chain: the current context is allocated;
context 0 is the one context with a null `prev`; the `prev` of any other
context is an older context whose store is not empty; the first symbol of
every store that is not empty is allocated and named; and the root pointer is
symbol 0, whose nested context is context 0. -/
def ChainInv (T : Table) : Prop :=
  (∃ c, T.current_context = some c ∧ c < T.ctxs.length) ∧
  (∀ (i : Nat) (x : symbol_context_t), T.ctxs[i]? = some x → (x.prev = none ↔ i = 0)) ∧
  (∀ (i : Nat) (x : symbol_context_t) (j : Nat), T.ctxs[i]? = some x → x.prev = some j →
    j < i ∧ ∃ par r, T.ctxs[j]? = some par ∧ par.sym = some r) ∧
  (∀ (i : Nat) (x : symbol_context_t) (r : Nat), T.ctxs[i]? = some x → x.sym = some r →
    ∃ s nm, T.syms[r]? = some s ∧ s.name = some nm) ∧
  (T.root_context = some 0 ∧ ∃ rs, T.syms[0]? = some rs ∧ rs.context = some 0)

/-- The steps of the test `store_symbols` up to its first two closes: a
symbol "a" stored and opened, an anonymous context opened in it, a name
stored there, closed again. -/
def chain_test_steps : List Step :=
  [.create (some (ascii "a")), .store (some 1), .open_context (some (ascii "a")),
   .open_context none, .create (some (ascii "b")), .store (some 3), .close_context]

/-- The store of the current context is not empty. -/
def CurrentStoreFull (T : Table) : Prop :=
  ∃ c x r, T.current_context = some c ∧ T.ctxs[c]? = some x ∧ x.sym = some r

/-- The table after the steps `chain_test_steps` from `init_table` (the
uninitialized table if they fault). -/
def chain_test_table : Table :=
  match run_steps init_table chain_test_steps with
  | .ok T => T
  | .error _ => Table.uninit

/-! ## Facts about `strcmp` -/

theorem strcmp_self (a : CString) : strcmp a a = 0 := by
  induction a with
  | nil => simp [strcmp]
  | cons x s ih => simp [strcmp, ih]

theorem strcmp_eq_zero {a b : CString} : strcmp a b = 0 ↔ a = b := by
  constructor
  · intro h
    induction a generalizing b with
    | nil => cases b with
      | nil => rfl
      | cons y t => simp [strcmp] at h
    | cons x s ih => cases b with
      | nil => simp [strcmp] at h
      | cons y t =>
        simp only [strcmp] at h
        split_ifs at h with h1 h2
        · omega
        · have hxy : x = y := by omega
          rw [hxy, ih h]
  · rintro rfl; exact strcmp_self a

theorem strcmp_lt_iff_gt {a b : CString} : strcmp a b < 0 ↔ 0 < strcmp b a := by
  induction a generalizing b with
  | nil => cases b <;> simp [strcmp]
  | cons x s ih => cases b with
    | nil => simp [strcmp]
    | cons y t =>
      simp only [strcmp]
      split_ifs <;> first | omega | simp | exact ih

theorem strcmp_trans {a b c : CString} (h1 : strcmp a b < 0) (h2 : strcmp b c < 0) :
    strcmp a c < 0 := by
  induction a generalizing b c with
  | nil => cases c with
    | nil => cases b <;> simp [strcmp] at h1 h2
    | cons z u => simp [strcmp]
  | cons x s ih => cases b with
    | nil => simp [strcmp] at h1
    | cons y t => cases c with
      | nil => simp [strcmp] at h2
      | cons z u =>
        simp only [strcmp] at h1 h2 ⊢
        split_ifs at h1 h2 ⊢ <;> first | omega | simp | exact ih h1 h2

/-! ## Stores as trees -/

theorem shape_none {syms : List symbol_t} {t : Tree} (h : Shape syms none t) : t = .leaf := by
  cases t with
  | leaf => rfl
  | node l a n r => simp [Shape] at h

theorem shape_frame {syms : List symbol_t} {q : Option Nat} {t : Tree} {b : Nat} (x : symbol_t)
    (h : Shape syms q t) (hb : b ∉ t.addrs) : Shape (syms.set b x) q t := by
  induction t generalizing q with
  | leaf => simpa [Shape] using h
  | node l a n r ihl ihr =>
    obtain ⟨hq, s, hs, hn, hl, hr⟩ := h
    simp only [Tree.addrs, Tree.toList, List.map_append, List.map_cons, List.mem_append,
      List.mem_cons, not_or] at hb
    refine ⟨hq, s, ?_, hn, ihl hl ?_, ihr hr ?_⟩
    · rw [List.getElem?_set_ne hb.2.1]; exact hs
    · exact hb.1
    · exact hb.2.2

theorem shape_append {syms : List symbol_t} {q : Option Nat} {t : Tree} (ext : List symbol_t)
    (h : Shape syms q t) : Shape (syms ++ ext) q t := by
  induction t generalizing q with
  | leaf => simpa [Shape] using h
  | node l a n r ihl ihr =>
    obtain ⟨hq, s, hs, hn, hl, hr⟩ := h
    refine ⟨hq, s, ?_, hn, ihl hl, ihr hr⟩
    have hlt : a < syms.length := by
      by_contra hc
      rw [List.getElem?_eq_none (by omega)] at hs
      cases hs
    rw [List.getElem?_append_left hlt]; exact hs

theorem shape_addr_lt {syms : List symbol_t} {q : Option Nat} {t : Tree}
    (h : Shape syms q t) : ∀ a ∈ t.addrs, a < syms.length := by
  induction t generalizing q with
  | leaf => intro a ha; simp [Tree.addrs, Tree.toList] at ha
  | node l b n r ihl ihr =>
    obtain ⟨_, s, hs, _, hl, hr⟩ := h
    intro a ha
    simp only [Tree.addrs, Tree.toList, List.map_append, List.map_cons, List.mem_append,
      List.mem_cons] at ha
    rcases ha with ha | rfl | ha
    · exact ihl hl a ha
    · by_contra hc
      rw [List.getElem?_eq_none (by omega)] at hs
      cases hs
    · exact ihr hr a ha

theorem shape_name {syms : List symbol_t} {q : Option Nat} {t : Tree}
    (h : Shape syms q t) : ∀ x ∈ t.toList, ∃ s, syms[x.1]? = some s ∧ s.name = some x.2 := by
  induction t generalizing q with
  | leaf => intro a ha; simp [Tree.toList] at ha
  | node l b n r ihl ihr =>
    obtain ⟨_, s, hs, hn, hl, hr⟩ := h
    intro x hx
    simp only [Tree.toList, List.mem_append, List.mem_cons] at hx
    rcases hx with hx | rfl | hx
    · exact ihl hl x hx
    · exact ⟨s, hs, hn⟩
    · exact ihr hr x hx

theorem shape_unique {syms : List symbol_t} {q : Option Nat} {t u : Tree}
    (h : Shape syms q t) (h' : Shape syms q u) : t = u := by
  induction t generalizing q u with
  | leaf =>
    have : q = none := h
    subst this
    exact (shape_none h').symm
  | node l a n r ihl ihr =>
    obtain ⟨hq, s, hs, hn, hl, hr⟩ := h
    subst hq
    cases u with
    | leaf => simp [Shape] at h'
    | node l' a' n' r' =>
      obtain ⟨hq', s', hs', hn', hl', hr'⟩ := h'
      cases hq'
      rw [hs] at hs'; cases hs'
      rw [hn] at hn'; cases hn'
      rw [ihl hl hl', ihr hr hr']

theorem inorder_shape {syms : List symbol_t} {fuel : Nat} {q : Option Nat}
    {l : List (Nat × CString)} (h : inorder syms fuel q = some l) :
    ∃ t, Shape syms q t ∧ t.toList = l ∧ t.height ≤ fuel := by
  induction fuel generalizing q l with
  | zero =>
    cases q with
    | none => simp [inorder] at h; exact ⟨.leaf, rfl, by simp [Tree.toList, h], by simp [Tree.height]⟩
    | some a => simp [inorder] at h
  | succ f ih =>
    cases q with
    | none => simp [inorder] at h; exact ⟨.leaf, rfl, by simp [Tree.toList, h], by simp [Tree.height]⟩
    | some a =>
      simp only [inorder] at h
      split at h
      · cases h
      · rename_i s hs
        split at h
        · cases h
        · rename_i n hn
          split at h
          · rename_i ll rr hl hr
            cases h
            obtain ⟨tl, sl, el, hl'⟩ := ih hl
            obtain ⟨tr, sr, er, hr'⟩ := ih hr
            refine ⟨.node tl a n tr, ⟨rfl, s, hs, hn, sl, sr⟩, by simp [Tree.toList, el, er], ?_⟩
            simp only [Tree.height]; omega
          · cases h

theorem shape_inorder {syms : List symbol_t} {fuel : Nat} {q : Option Nat} {t : Tree}
    (h : Shape syms q t) (hf : t.height ≤ fuel) : inorder syms fuel q = some t.toList := by
  induction t generalizing q fuel with
  | leaf =>
    have : q = none := h
    subst this
    cases fuel <;> simp [inorder, Tree.toList]
  | node l a n r ihl ihr =>
    obtain ⟨hq, s, hs, hn, hl, hr⟩ := h
    subst hq
    cases fuel with
    | zero => simp [Tree.height] at hf
    | succ f =>
      simp only [Tree.height] at hf
      simp only [inorder, hs, hn, ihl hl (by omega : l.height ≤ f),
        ihr hr (by omega : r.height ≤ f), Tree.toList]

theorem find_loop_shape {syms : List symbol_t} {fuel : Nat} {q : Option Nat} {t : Tree}
    (nm : CString) (h : Shape syms q t) (hf : t.height ≤ fuel) :
    find_symbol_loop syms nm fuel q = .ok (t.find nm) := by
  induction t generalizing q fuel with
  | leaf =>
    have : q = none := h
    subst this
    cases fuel <;> simp [find_symbol_loop, Tree.find]
  | node l a n r ihl ihr =>
    obtain ⟨hq, s, hs, hn, hl, hr⟩ := h
    subst hq
    cases fuel with
    | zero => simp [Tree.height] at hf
    | succ f =>
      simp only [Tree.height] at hf
      simp only [find_symbol_loop, hs, hn, Tree.find]
      by_cases h0 : strcmp nm n = 0
      · simp [h0]
      · by_cases h1 : strcmp nm n < 0
        · simp [h0, h1, ihl hl (by omega : l.height ≤ f)]
        · simp [h0, h1, ihr hr (by omega : r.height ≤ f)]

theorem height_le_length (t : Tree) : t.height ≤ t.toList.length := by
  induction t with
  | leaf => simp [Tree.height]
  | node l a n r ihl ihr => simp [Tree.height, Tree.toList]; omega

theorem nodup_bounded_length {l : List Nat} {n : Nat} (hd : l.Nodup) (hb : ∀ a ∈ l, a < n) :
    l.length ≤ n := by
  have hsub : l ⊆ List.range n := fun a ha => List.mem_range.mpr (hb a ha)
  have := (List.subperm_of_subset hd hsub).length_le
  simpa using this

theorem shape_height_le {syms : List symbol_t} {q : Option Nat} {t : Tree}
    (h : Shape syms q t) (hd : t.addrs.Nodup) : t.height ≤ syms.length := by
  have h1 := height_le_length t
  have h2 := nodup_bounded_length hd (shape_addr_lt h)
  simp [Tree.addrs] at h2
  omega

/-! ## Search and insertion on the denoted tree -/

theorem asc_node {l r : Tree} {a : Nat} {n : CString}
    (h : ascending (Tree.node l a n r).toList) :
    ascending l.toList ∧ ascending r.toList ∧
      (∀ x ∈ l.toList, strcmp x.2 n < 0) ∧ (∀ y ∈ r.toList, strcmp n y.2 < 0) := by
  unfold ascending at h ⊢
  simp only [Tree.toList, List.pairwise_append, List.pairwise_cons, List.mem_cons] at h
  obtain ⟨hl, ⟨hr1, hr2⟩, hx⟩ := h
  exact ⟨hl, hr2, fun x hx' => hx x hx' (a, n) (Or.inl rfl), hr1⟩

theorem asc_node_mk {l r : Tree} {a : Nat} {n : CString}
    (hl : ascending l.toList) (hr : ascending r.toList)
    (h1 : ∀ x ∈ l.toList, strcmp x.2 n < 0) (h2 : ∀ y ∈ r.toList, strcmp n y.2 < 0) :
    ascending (Tree.node l a n r).toList := by
  unfold ascending at hl hr ⊢
  simp only [Tree.toList, List.pairwise_append, List.pairwise_cons, List.mem_cons]
  refine ⟨hl, ⟨h2, hr⟩, ?_⟩
  intro x hx y hy
  rcases hy with rfl | hy
  · exact h1 x hx
  · exact strcmp_trans (h1 x hx) (h2 y hy)

theorem find_mem {t : Tree} {nm : CString} {a : Nat} (h : t.find nm = some a) :
    (a, nm) ∈ t.toList := by
  induction t with
  | leaf => simp [Tree.find] at h
  | node l b n r ihl ihr =>
    simp only [Tree.find] at h
    simp only [Tree.toList, List.mem_append, List.mem_cons]
    split_ifs at h with h0 h1
    · cases h
      rw [strcmp_eq_zero.mp h0]; exact Or.inr (Or.inl rfl)
    · exact Or.inl (ihl h)
    · exact Or.inr (Or.inr (ihr h))

theorem mem_find {t : Tree} {nm : CString} {a : Nat} (ha : ascending t.toList)
    (h : (a, nm) ∈ t.toList) : t.find nm = some a := by
  induction t with
  | leaf => simp [Tree.toList] at h
  | node l b n r ihl ihr =>
    obtain ⟨al, ar, h1, h2⟩ := asc_node ha
    simp only [Tree.toList, List.mem_append, List.mem_cons] at h
    simp only [Tree.find]
    rcases h with h | h | h
    · have hlt := h1 _ h
      have hne : strcmp nm n ≠ 0 := by simp only at hlt; omega
      simp only at hlt
      simp [hne, hlt, ihl al h]
    · cases h
      simp [strcmp_self]
    · have hgt := strcmp_lt_iff_gt.mp (h2 _ h)
      simp only at hgt
      have hne : strcmp nm n ≠ 0 := by omega
      have hnl : ¬ strcmp nm n < 0 := by omega
      simp [hne, hnl, ihr ar h]

theorem find_none_iff {t : Tree} {nm : CString} (ha : ascending t.toList) :
    t.find nm = none ↔ ∀ x ∈ t.toList, x.2 ≠ nm := by
  constructor
  · intro h x hx hn
    have : t.find nm = some x.1 := mem_find ha (by rw [← hn]; exact hx)
    rw [h] at this; cases this
  · intro h
    cases hf : t.find nm with
    | none => rfl
    | some a => exact absurd rfl (h _ (find_mem hf))

theorem insert_of_find_some {t : Tree} {nm : CString} {a : Nat} (p : Nat)
    (h : t.find nm = some a) : t.insert p nm = t := by
  induction t with
  | leaf => simp [Tree.find] at h
  | node l b n r ihl ihr =>
    simp only [Tree.find] at h
    simp only [Tree.insert]
    split_ifs at h ⊢ with h0 h1
    · rfl
    · rw [ihl h]
    · rw [ihr h]

theorem mem_insert {t : Tree} {nm : CString} (p : Nat) (h : t.find nm = none)
    (x : Nat × CString) : x ∈ (t.insert p nm).toList ↔ x = (p, nm) ∨ x ∈ t.toList := by
  induction t with
  | leaf => simp [Tree.insert, Tree.toList]
  | node l b n r ihl ihr =>
    simp only [Tree.find] at h
    simp only [Tree.insert]
    split_ifs at h ⊢ with h0 h1
    · simp only [Tree.toList, List.mem_append, List.mem_cons, ihl h]; tauto
    · simp only [Tree.toList, List.mem_append, List.mem_cons, ihr h]; tauto

theorem asc_insert {t : Tree} {nm : CString} (p : Nat) (ha : ascending t.toList)
    (h : t.find nm = none) : ascending (t.insert p nm).toList := by
  induction t with
  | leaf => simp [Tree.insert, Tree.toList, ascending]
  | node l b n r ihl ihr =>
    obtain ⟨al, ar, h1, h2⟩ := asc_node ha
    simp only [Tree.find] at h
    simp only [Tree.insert]
    split_ifs at h ⊢ with h0 h1'
    · refine asc_node_mk (ihl al h) ar ?_ h2
      intro x hx
      rcases (mem_insert p h x).mp hx with rfl | hx
      · exact h1'
      · exact h1 x hx
    · refine asc_node_mk al (ihr ar h) h1 ?_
      intro x hx
      rcases (mem_insert p h x).mp hx with rfl | hx
      · have := @strcmp_lt_iff_gt n nm
        simp only
        have h3 : strcmp nm n ≠ 0 := h0
        have h4 : ¬ strcmp nm n < 0 := h1'
        have h5 : ¬ strcmp n nm = 0 := by
          intro hc; exact h3 (by rw [strcmp_eq_zero.mp hc]; exact strcmp_self nm)
        have := @strcmp_lt_iff_gt nm n
        omega
      · exact h2 x hx

theorem find_insert_self {t : Tree} {nm : CString} (p : Nat) (h : t.find nm = none) :
    (t.insert p nm).find nm = some p := by
  induction t with
  | leaf => simp [Tree.insert, Tree.find, strcmp_self]
  | node l b n r ihl ihr =>
    simp only [Tree.find] at h
    simp only [Tree.insert]
    split_ifs at h ⊢ with h0 h1
    · simp [Tree.find, h0, h1, ihl h]
    · simp [Tree.find, h0, h1, ihr h]

theorem find_insert_other {t : Tree} {nm m : CString} (p : Nat) (hne : m ≠ nm) :
    (t.insert p nm).find m = t.find m := by
  induction t with
  | leaf =>
    have : strcmp m nm ≠ 0 := fun hc => hne (strcmp_eq_zero.mp hc)
    simp [Tree.insert, Tree.find, this]
  | node l b n r ihl ihr =>
    simp only [Tree.insert]
    split_ifs with h0 h1
    · rfl
    · simp [Tree.find, ihl]
    · simp [Tree.find, ihr]

theorem ascending_iff_chain (l : List (Nat × CString)) :
    ascending l ↔ l.Chain' (fun x y => strcmp x.2 y.2 < 0) := by
  haveI : IsTrans (Nat × CString) (fun x y => strcmp x.2 y.2 < 0) :=
    ⟨fun _ _ _ h1 h2 => strcmp_trans h1 h2⟩
  exact List.chain'_iff_pairwise.symm

theorem asc_nodup {syms : List symbol_t} {q : Option Nat} {t : Tree}
    (h : Shape syms q t) (ha : ascending t.toList) : t.addrs.Nodup := by
  unfold Tree.addrs List.Nodup
  rw [List.pairwise_map]
  refine List.Pairwise.imp_of_mem ?_ ha
  intro x y hx hy hlt hxy
  obtain ⟨s, hs, hn⟩ := shape_name h x hx
  obtain ⟨s', hs', hn'⟩ := shape_name h y hy
  rw [hxy, hs'] at hs
  cases hs
  rw [hn'] at hn
  have hyx : y.2 = x.2 := Option.some.inj hn
  rw [hyx, strcmp_self] at hlt
  exact absurd hlt (by decide)

theorem getElem?_lt {α : Type} {syms : List α} {a : Nat} {s : α} (h : syms[a]? = some s) :
    a < syms.length := by
  by_contra hc
  rw [List.getElem?_eq_none (by omega)] at h
  cases h

theorem store_loop_spec (syms : List symbol_t) (p : Nat) (nm : CString) :
    ∀ (t : Tree) (fuel r : Nat), Shape syms (some r) t → t.height ≤ fuel →
      (∀ a, t.find nm = some a →
        store_symbol_loop syms p nm fuel (some r) = .ok (.SYM_EXISTS, syms)) ∧
      (t.find nm = none → ∃ b sb sb', b ∈ t.addrs ∧ syms[b]? = some sb ∧
        ((sb' = { sb with left := some p } ∧ sb.left = none) ∨
         (sb' = { sb with right := some p } ∧ sb.right = none)) ∧
        store_symbol_loop syms p nm fuel (some r) = .ok (.SYM_NO_ERROR, syms.set b sb') ∧
        (t.addrs.Nodup → p ∉ t.addrs →
          (∃ sp, syms[p]? = some sp ∧ sp.name = some nm ∧ sp.left = none ∧ sp.right = none) →
          Shape (syms.set b sb') (some r) (t.insert p nm))) := by
  intro t
  induction t with
  | leaf => intro fuel r h; simp [Shape] at h
  | node l a n r' ihl ihr =>
    intro fuel r h hf
    obtain ⟨hq, s, hs, hn, hl, hr⟩ := h
    cases hq
    have hlen : a < syms.length := getElem?_lt hs
    cases fuel with
    | zero => simp [Tree.height] at hf
    | succ f =>
      simp only [Tree.height] at hf
      simp only [store_symbol_loop, hs, hn, Tree.find]
      by_cases h0 : strcmp nm n = 0
      · simp [h0]
      · by_cases h1 : strcmp nm n < 0
        · simp only [h0, h1, if_true, if_false]
          cases hsl : s.left with
          | none =>
            rw [hsl] at hl
            have hleaf := shape_none hl
            subst hleaf
            refine ⟨by simp [Tree.find], fun _ => ⟨a, s, { s with left := some p }, ?_, hs,
              Or.inl ⟨rfl, hsl⟩, by simp [hn], ?_⟩⟩
            · simp [Tree.addrs, Tree.toList]
            · intro hd hp ⟨sp, hsp, hspn, hspl, hspr⟩
              simp only [Tree.addrs, Tree.toList, List.nil_append, List.map_cons, List.mem_cons,
                not_or, List.nodup_cons] at hd hp
              simp only [Tree.insert, h0, h1, if_true, if_false]
              refine ⟨rfl, { s with left := some p }, ?_, hn, ?_, ?_⟩
              · rw [List.getElem?_set_self hlen]
              · refine ⟨rfl, sp, ?_, hspn, ?_, ?_⟩
                · rw [List.getElem?_set_ne (Ne.symm hp.1)]; exact hsp
                · rw [hspl]; rfl
                · rw [hspr]; rfl
              · exact shape_frame _ hr hd.1
          | some l' =>
            rw [hsl] at hl
            obtain ⟨ih1, ih2⟩ := ihl f l' hl (by omega)
            refine ⟨ih1, fun hnone => ?_⟩
            obtain ⟨b, sb, sb', hb, hsb, hsb', hloop, hshape⟩ := ih2 hnone
            refine ⟨b, sb, sb', ?_, hsb, hsb', hloop, ?_⟩
            · simp only [Tree.addrs, Tree.toList, List.map_append, List.mem_append] at hb ⊢
              exact Or.inl hb
            · intro hd hp hsp
              simp only [Tree.addrs, Tree.toList, List.map_append, List.map_cons,
                List.mem_append, List.mem_cons, not_or, List.nodup_append, List.nodup_cons,
                List.Disjoint] at hd hp
              have hb' : b ∈ l.addrs := hb
              have hba : b ≠ a := by
                rintro rfl
                exact hd.2.2 hb' (Or.inl rfl)
              have hbr : b ∉ r'.addrs := fun hc => hd.2.2 hb' (Or.inr hc)
              simp only [Tree.insert, h0, h1, if_true, if_false]
              refine ⟨rfl, s, ?_, hn, ?_, ?_⟩
              · rw [List.getElem?_set_ne hba]; exact hs
              · rw [hsl]; exact hshape hd.1 hp.1 hsp
              · exact shape_frame _ hr hbr
        · simp only [h0, h1, if_false]
          cases hsr : s.right with
          | none =>
            rw [hsr] at hr
            have hleaf := shape_none hr
            subst hleaf
            refine ⟨by simp [Tree.find], fun _ => ⟨a, s, { s with right := some p }, ?_, hs,
              Or.inr ⟨rfl, hsr⟩, by simp [hn], ?_⟩⟩
            · simp [Tree.addrs, Tree.toList]
            · intro hd hp ⟨sp, hsp, hspn, hspl, hspr⟩
              simp only [Tree.addrs, Tree.toList, List.map_append, List.map_cons, List.map_nil,
                List.mem_append, List.mem_cons, List.mem_singleton, not_or, List.nodup_append,
                List.nodup_cons, List.Disjoint] at hd hp
              have hal : a ∉ l.addrs := fun hc => hd.2.2 hc (Or.inl rfl)
              simp only [Tree.insert, h0, h1, if_false]
              refine ⟨rfl, { s with right := some p }, ?_, hn, ?_, ?_⟩
              · rw [List.getElem?_set_self hlen]
              · exact shape_frame _ hl hal
              · refine ⟨rfl, sp, ?_, hspn, ?_, ?_⟩
                · rw [List.getElem?_set_ne (Ne.symm hp.2.1)]; exact hsp
                · rw [hspl]; rfl
                · rw [hspr]; rfl
          | some r'' =>
            rw [hsr] at hr
            obtain ⟨ih1, ih2⟩ := ihr f r'' hr (by omega)
            refine ⟨ih1, fun hnone => ?_⟩
            obtain ⟨b, sb, sb', hb, hsb, hsb', hloop, hshape⟩ := ih2 hnone
            refine ⟨b, sb, sb', ?_, hsb, hsb', hloop, ?_⟩
            · simp only [Tree.addrs, Tree.toList, List.map_append, List.map_cons,
                List.mem_append, List.mem_cons] at hb ⊢
              exact Or.inr (Or.inr hb)
            · intro hd hp hsp
              simp only [Tree.addrs, Tree.toList, List.map_append, List.map_cons,
                List.mem_append, List.mem_cons, not_or, List.nodup_append, List.nodup_cons,
                List.Disjoint] at hd hp
              have hb' : b ∈ r'.addrs := hb
              have hba : b ≠ a := by
                rintro rfl
                exact hd.2.1.1 hb'
              have hbl : b ∉ l.addrs := fun hc => hd.2.2 hc (Or.inr hb')
              simp only [Tree.insert, h0, h1, if_false]
              refine ⟨rfl, s, ?_, hn, ?_, ?_⟩
              · rw [List.getElem?_set_ne hba]; exact hs
              · exact shape_frame _ hl hbl
              · rw [hsr]; exact hshape hd.2.1.2 hp.2.2 hsp

/-! ## `store_symbol` and `find_symbol` on a store that denotes a tree -/

theorem store_inorder_shape {T : Table} {l : List (Nat × CString)}
    (h : store_inorder T = some l) :
    ∃ c ctx t, T.current_context = some c ∧ T.ctxs[c]? = some ctx ∧
      Shape T.syms ctx.sym t ∧ t.toList = l ∧ t.height ≤ T.syms.length := by
  unfold store_inorder at h
  cases hc : T.current_context with
  | none => simp [hc] at h
  | some c =>
    simp only [hc, ctx_inorder] at h
    cases hx : T.ctxs[c]? with
    | none => simp [hx] at h
    | some ctx =>
      simp only [hx] at h
      obtain ⟨t, h1, h2, h3⟩ := inorder_shape h
      exact ⟨c, ctx, t, rfl, hx, h1, h2, h3⟩

theorem shape_store_inorder {T : Table} {c : Nat} {ctx : symbol_context_t} {t : Tree}
    (hc : T.current_context = some c) (hx : T.ctxs[c]? = some ctx)
    (hs : Shape T.syms ctx.sym t) (hh : t.height ≤ T.syms.length) :
    store_inorder T = some t.toList := by
  simp only [store_inorder, hc, ctx_inorder, hx]
  exact shape_inorder hs hh

theorem find_symbol_shape {T : Table} {c : Nat} {ctx : symbol_context_t} {t : Tree}
    (hc : T.current_context = some c) (hx : T.ctxs[c]? = some ctx)
    (hs : Shape T.syms ctx.sym t) (hh : t.height ≤ T.syms.length) (nm : CString) :
    find_symbol (some nm) T = .ok (t.find nm) := by
  simp only [find_symbol, hc, hx]
  exact find_loop_shape nm hs (Nat.le_succ_of_le hh)

theorem store_symbol_exists {T : Table} {c : Nat} {ctx : symbol_context_t} {t : Tree}
    {p a : Nat} {s : symbol_t} {nm : CString}
    (hc : T.current_context = some c) (hx : T.ctxs[c]? = some ctx)
    (hs : Shape T.syms ctx.sym t) (hh : t.height ≤ T.syms.length)
    (hp : T.syms[p]? = some s) (hn : s.name = some nm) (hf : t.find nm = some a) :
    store_symbol (some p) T = .ok (.SYM_EXISTS, T) := by
  simp only [store_symbol, hp, hn, hc, hx]
  cases hr : ctx.sym with
  | none =>
    rw [hr] at hs
    rw [shape_none hs] at hf
    simp [Tree.find] at hf
  | some r =>
    rw [hr] at hs
    simp only [(store_loop_spec T.syms p nm t _ r hs (Nat.le_succ_of_le hh)).1 a hf]
    cases T
    simp only at hc
    subst hc
    rfl

/-- What a successful `store_symbol` leaves behind, in terms of the tree. -/
theorem store_symbol_insert {T : Table} {c : Nat} {ctx : symbol_context_t} {t : Tree}
    {p : Nat} {s : symbol_t} {nm : CString}
    (hc : T.current_context = some c) (hx : T.ctxs[c]? = some ctx)
    (hs : Shape T.syms ctx.sym t) (hh : t.height ≤ T.syms.length)
    (hp : T.syms[p]? = some s) (hn : s.name = some nm)
    (hl : s.left = none) (hr : s.right = none)
    (hf : t.find nm = none) (hd : t.addrs.Nodup) (hfresh : p ∉ t.addrs) :
    ∃ T' ctx', store_symbol (some p) T = .ok (.SYM_NO_ERROR, T') ∧
      T'.current_context = some c ∧ T'.ctxs[c]? = some ctx' ∧
      Shape T'.syms ctx'.sym (t.insert p nm) ∧
      T'.syms.length = T.syms.length ∧ T'.ctxs.length = T.ctxs.length ∧
      T'.root_context = T.root_context ∧ T'.context_serial = T.context_serial ∧
      ctx'.prev = ctx.prev ∧ ctx'.next = ctx.next ∧
      (∀ c', c' ≠ c → T'.ctxs[c']? = T.ctxs[c']?) ∧
      (∀ q, q ∉ t.addrs → T'.syms[q]? = T.syms[q]?) ∧
      (∀ (q : Nat) (s0 : symbol_t), T.syms[q]? = some s0 →
        ∃ s1, T'.syms[q]? = some s1 ∧ s1.name = s0.name ∧ s1.context = s0.context) := by
  have hclen : c < T.ctxs.length := by
    by_contra hcc
    rw [List.getElem?_eq_none (by omega)] at hx
    cases hx
  simp only [store_symbol, hp, hn, hc, hx]
  cases hrt : ctx.sym with
  | none =>
    rw [hrt] at hs
    have := shape_none hs
    subst this
    refine ⟨_, { ctx with sym := some p }, rfl, rfl, ?_, ?_, rfl, ?_, rfl, rfl, rfl, rfl,
      ?_, ?_, ?_⟩
    · simp [List.getElem?_set_self hclen]
    · simp only [Tree.insert]
      exact ⟨rfl, s, hp, hn, by rw [hl]; rfl, by rw [hr]; rfl⟩
    · simp
    · intro c' hc'
      simp [List.getElem?_set_ne (Ne.symm hc')]
    · intro q _; rfl
    · intro q s0 h0; exact ⟨s0, h0, rfl, rfl⟩
  | some r =>
    rw [hrt] at hs
    obtain ⟨b, sb, sb', hb, hsb, hsb', hloop, hshape⟩ :=
      (store_loop_spec T.syms p nm t _ r hs (Nat.le_succ_of_le hh)).2 hf
    simp only [hloop]
    refine ⟨_, ctx, rfl, rfl, hx, ?_, ?_, rfl, rfl, rfl, rfl, rfl, ?_, ?_, ?_⟩
    · rw [hrt]; exact hshape hd hfresh ⟨s, hp, hn, hl, hr⟩
    · simp
    · intro c' _; rfl
    · intro q hq
      have : b ≠ q := by rintro rfl; exact hq hb
      simp [List.getElem?_set_ne this]
    · intro q s0 h0
      by_cases hbq : b = q
      · subst hbq
        rw [hsb] at h0
        cases h0
        refine ⟨sb', by simp [List.getElem?_set_self (getElem?_lt hsb)], ?_, ?_⟩
        · rcases hsb' with ⟨h, _⟩ | ⟨h, _⟩ <;> rw [h]
        · rcases hsb' with ⟨h, _⟩ | ⟨h, _⟩ <;> rw [h]
      · exact ⟨s0, by simp [List.getElem?_set_ne hbq, h0], rfl, rfl⟩

theorem storeFrame_refl (T : Table) (l : List (Nat × CString)) : StoreFrame T T l :=
  ⟨rfl, rfl, rfl, rfl, le_refl _, fun _ _ => rfl, fun _ x h => ⟨x, h, rfl, rfl⟩,
    fun _ _ _ => rfl, fun _ s h => ⟨s, h, rfl, rfl⟩⟩

theorem storeFrame_trans {T T1 T2 : Table} {l l1 : List (Nat × CString)}
    (h1 : StoreFrame T T1 l) (h2 : StoreFrame T1 T2 l1)
    (hl1 : ∀ a ∈ l1.map Prod.fst, a ∈ l.map Prod.fst ∨ T.syms.length ≤ a) :
    StoreFrame T T2 l := by
  obtain ⟨a1, a2, a3, a4, a5, a6, a7, a8, a9⟩ := h1
  obtain ⟨b1, b2, b3, b4, b5, b6, b7, b8, b9⟩ := h2
  refine ⟨b1.trans a1, b2.trans a2, b3.trans a3, b4.trans a4, le_trans a5 b5, ?_, ?_, ?_, ?_⟩
  · intro c hc
    rw [b6 c (by rw [a1]; exact hc), a6 c hc]
  · intro c x hx
    obtain ⟨x1, hx1, p1, n1⟩ := a7 c x hx
    obtain ⟨x2, hx2, p2, n2⟩ := b7 c x1 hx1
    exact ⟨x2, hx2, p2.trans p1, n2.trans n1⟩
  · intro q hq hnl
    have hq1 : q ∉ l1.map Prod.fst := by
      intro hmem
      rcases hl1 q hmem with h | h
      · exact hnl h
      · omega
    rw [b8 q (by omega) hq1, a8 q hq hnl]
  · intro q s hs
    obtain ⟨s1, hs1, n1, c1⟩ := a9 q s hs
    obtain ⟨s2, hs2, n2, c2⟩ := b9 q s1 hs1
    exact ⟨s2, hs2, n2.trans n1, c2.trans c1⟩

theorem storeFrame_create (nm : Option CString) (T : Table) (l : List (Nat × CString)) :
    StoreFrame T (create_symbol nm T).2 l := by
  refine ⟨rfl, rfl, rfl, rfl, by simp [create_symbol], fun _ _ => rfl,
    fun _ x h => ⟨x, h, rfl, rfl⟩, ?_, ?_⟩
  · intro q hq _
    simp [create_symbol, List.getElem?_append_left hq]
  · intro q s hs
    refine ⟨s, ?_, rfl, rfl⟩
    simp [create_symbol, List.getElem?_append_left (getElem?_lt hs), hs]

/-- Storing a fresh symbol with a new name in a store that is a search tree. -/
theorem store_fresh_spec {T : Table} {l : List (Nat × CString)} {p : Nat} {s : symbol_t}
    {nm : CString} (hord : store_inorder T = some l) (hasc : ascending l)
    (hp : T.syms[p]? = some s) (hn : s.name = some nm)
    (hl : s.left = none) (hr : s.right = none)
    (hfresh : p ∉ l.map Prod.fst) (hnew : ∀ x ∈ l, x.2 ≠ nm) :
    ∃ T' l', store_symbol (some p) T = .ok (.SYM_NO_ERROR, T') ∧
      store_inorder T' = some l' ∧ ascending l' ∧
      (∀ x, x ∈ l' ↔ x = (p, nm) ∨ x ∈ l) ∧
      find_symbol (some nm) T' = .ok (some p) ∧
      (∀ m, m ≠ nm → find_symbol (some m) T' = find_symbol (some m) T) ∧
      T'.syms.length = T.syms.length ∧
      (∀ q, q ∉ l.map Prod.fst → T'.syms[q]? = T.syms[q]?) ∧
      StoreFrame T T' l := by
  obtain ⟨c, ctx, t, hc, hx, hs, htl, hh⟩ := store_inorder_shape hord
  subst htl
  have hf : t.find nm = none := (find_none_iff hasc).mpr hnew
  have hd : t.addrs.Nodup := asc_nodup hs hasc
  obtain ⟨T', ctx', hst, hc', hx', hs', hlen, hclen, hroot, hser, hprev, hnext, hctxs,
      hsyms, hattr⟩ :=
    store_symbol_insert hc hx hs hh hp hn hl hr hf hd hfresh
  have hasc' : ascending (t.insert p nm).toList := asc_insert p hasc hf
  have hh' : (t.insert p nm).height ≤ T'.syms.length :=
    shape_height_le hs' (asc_nodup hs' hasc')
  refine ⟨T', (t.insert p nm).toList, hst, shape_store_inorder hc' hx' hs' hh', hasc',
    mem_insert p hf, ?_, ?_, hlen, hsyms, ?_⟩
  · rw [find_symbol_shape hc' hx' hs' hh', find_insert_self p hf]
  · intro m hm
    rw [find_symbol_shape hc' hx' hs' hh', find_symbol_shape hc hx hs hh,
      find_insert_other p hm]
  · refine ⟨by rw [hc', hc], hroot, hser, hclen, by omega, ?_, ?_, fun q _ hq => hsyms q hq,
      hattr⟩
    · intro c' hne
      exact hctxs c' (fun h => hne (by rw [hc, h]))
    · intro c' x hx0
      by_cases hcc : c' = c
      · subst hcc
        rw [hx] at hx0
        cases hx0
        exact ⟨ctx', hx', hprev, hnext⟩
      · rw [hctxs c' hcc]
        exact ⟨x, hx0, rfl, rfl⟩

/-- Storing a symbol whose name the search tree already holds. -/
theorem store_dup_spec {T : Table} {l : List (Nat × CString)} {p : Nat} {s : symbol_t}
    {nm : CString} (hord : store_inorder T = some l) (hasc : ascending l)
    (hp : T.syms[p]? = some s) (hn : s.name = some nm) (hmem : nm ∈ l.map Prod.snd) :
    store_symbol (some p) T = .ok (.SYM_EXISTS, T) := by
  obtain ⟨c, ctx, t, hc, hx, hs, htl, hh⟩ := store_inorder_shape hord
  subst htl
  obtain ⟨x, hx1, hx2⟩ := List.mem_map.mp hmem
  have hf : t.find nm = some x.1 := mem_find hasc (by rw [← hx2]; exact hx1)
  exact store_symbol_exists hc hx hs hh hp hn hf

theorem create_symbol_inorder {T : Table} {l : List (Nat × CString)} (nm : Option CString)
    (hord : store_inorder T = some l) : store_inorder (create_symbol nm T).2 = some l := by
  obtain ⟨c, ctx, t, hc, hx, hs, htl, hh⟩ := store_inorder_shape hord
  subst htl
  have hs' : Shape (create_symbol nm T).2.syms ctx.sym t := shape_append _ hs
  refine shape_store_inorder (T := (create_symbol nm T).2) hc hx hs' ?_
  simp only [create_symbol, List.length_append, List.length_singleton]
  omega

theorem create_symbol_get (nm : Option CString) (T : Table) :
    (create_symbol nm T).2.syms[(create_symbol nm T).1]? =
      some { ALLOC_DS_symbol with name := nm } := by
  simp [create_symbol]

theorem inorder_addr_lt {T : Table} {l : List (Nat × CString)}
    (hord : store_inorder T = some l) : ∀ a ∈ l.map Prod.fst, a < T.syms.length := by
  obtain ⟨c, ctx, t, hc, hx, hs, htl, hh⟩ := store_inorder_shape hord
  subst htl
  exact shape_addr_lt hs

theorem create_symbol_fresh {T : Table} {l : List (Nat × CString)} (nm : Option CString)
    (hord : store_inorder T = some l) : (create_symbol nm T).1 ∉ l.map Prod.fst := by
  intro hmem
  have := inorder_addr_lt hord _ hmem
  simp [create_symbol] at this

/-- One step of `store_names`: the store stays a search tree and gains
exactly the name stored, on a newly allocated symbol. -/
theorem store_names_step {T : Table} {l : List (Nat × CString)} (n : CString)
    (hord : store_inorder T = some l) (hasc : ascending l) :
    ∃ e T' l', store_symbol (some (create_symbol (some n) T).1) (create_symbol (some n) T).2
        = .ok (e, T') ∧
      store_inorder T' = some l' ∧ ascending l' ∧
      (∀ m, m ∈ l'.map Prod.snd ↔ m = n ∨ m ∈ l.map Prod.snd) ∧
      (∀ a ∈ l'.map Prod.fst, a ∈ l.map Prod.fst ∨ T.syms.length ≤ a) ∧
      StoreFrame T T' l := by
  have hord1 := create_symbol_inorder (some n) hord
  have hget := create_symbol_get (some n) T
  by_cases hmem : n ∈ l.map Prod.snd
  · refine ⟨_, _, l, store_dup_spec hord1 hasc hget rfl hmem, hord1, hasc, ?_,
      fun a ha => Or.inl ha, storeFrame_create _ T l⟩
    intro m
    constructor
    · exact Or.inr
    · rintro (rfl | h)
      · exact hmem
      · exact h
  · have hnew : ∀ x ∈ l, x.2 ≠ n := fun x hx hc => hmem (List.mem_map.mpr ⟨x, hx, hc⟩)
    obtain ⟨T', l', hst, hord', hasc', hmem', _, _, _, _, hframe⟩ :=
      store_fresh_spec hord1 hasc hget rfl rfl rfl (create_symbol_fresh (some n) hord) hnew
    refine ⟨_, T', l', hst, hord', hasc', ?_, ?_,
      storeFrame_trans (storeFrame_create _ T l) hframe (fun a ha => Or.inl ha)⟩
    · intro m
      simp only [List.mem_map, hmem']
      constructor
      · rintro ⟨x, hx | hx, rfl⟩
        · left; rw [hx]
        · right; exact ⟨x, hx, rfl⟩
      · rintro (rfl | ⟨x, hx, rfl⟩)
        · exact ⟨(_, m), Or.inl rfl, rfl⟩
        · exact ⟨x, Or.inr hx, rfl⟩
    · intro a ha
      obtain ⟨x, hx, rfl⟩ := List.mem_map.mp ha
      rcases (hmem' x).mp hx with rfl | hx
      · right; simp [create_symbol]
      · left; exact List.mem_map.mpr ⟨x, hx, rfl⟩

theorem store_names_spec (ns : List CString) :
    ∀ {T : Table} {l : List (Nat × CString)}, store_inorder T = some l → ascending l →
    ∃ T' l', store_names T ns = .ok T' ∧ store_inorder T' = some l' ∧ ascending l' ∧
      (∀ m, m ∈ l'.map Prod.snd ↔ m ∈ l.map Prod.snd ∨ m ∈ ns) ∧
      (∀ a ∈ l'.map Prod.fst, a ∈ l.map Prod.fst ∨ T.syms.length ≤ a) ∧
      StoreFrame T T' l := by
  induction ns with
  | nil =>
    intro T l hord hasc
    exact ⟨T, l, rfl, hord, hasc, by simp, fun a ha => Or.inl ha, storeFrame_refl T l⟩
  | cons n ns ih =>
    intro T l hord hasc
    obtain ⟨e, T1, l1, hst, hord1, hasc1, hmem1, haddr1, hfr1⟩ := store_names_step n hord hasc
    obtain ⟨T', l', hrun, hord', hasc', hmem', haddr', hfr'⟩ := ih hord1 hasc1
    refine ⟨T', l', ?_, hord', hasc', ?_, ?_, storeFrame_trans hfr1 hfr' haddr1⟩
    · simp only [store_names, hst, hrun]
    · intro m
      rw [hmem', hmem1]
      simp only [List.mem_cons]
      tauto
    · intro a ha
      rcases haddr' a ha with h | h
      · exact haddr1 a h
      · right
        have := hfr1.2.2.2.2.1
        omega

/-! ## Contexts -/

theorem find_loop_congr {syms syms1 : List symbol_t} (nm : CString)
    (hag : LinksAgree syms syms1) :
    ∀ (fuel fuel1 : Nat) (q r : Option Nat), fuel ≤ fuel1 →
      find_symbol_loop syms nm fuel q = .ok r → find_symbol_loop syms1 nm fuel1 q = .ok r := by
  intro fuel
  induction fuel with
  | zero =>
    intro fuel1 q r _ h
    cases q with
    | none => cases fuel1 <;> simpa [find_symbol_loop] using h
    | some a => simp [find_symbol_loop] at h
  | succ f ih =>
    intro fuel1 q r hle h
    cases q with
    | none => cases fuel1 <;> simpa [find_symbol_loop] using h
    | some a =>
      cases fuel1 with
      | zero => omega
      | succ f1 =>
        simp only [find_symbol_loop] at h ⊢
        cases hs : syms[a]? with
        | none => simp [hs] at h
        | some s =>
          obtain ⟨s1, hs1, hn, hl, hr⟩ := hag a s hs
          simp only [hs] at h
          simp only [hs1]
          cases hnm : s.name with
          | none => simp [hnm] at h
          | some tn =>
            rw [hnm] at hn
            simp only [hnm] at h
            simp only [hn]
            by_cases h0 : strcmp nm tn = 0
            · simpa [h0] using h
            · simp only [h0, if_false] at h ⊢
              rw [hl, hr]
              exact ih f1 _ r (by omega) h

theorem inorder_congr {syms syms1 : List symbol_t} (hag : LinksAgree syms syms1) :
    ∀ (fuel fuel1 : Nat) (q : Option Nat) (l : List (Nat × CString)), fuel ≤ fuel1 →
      inorder syms fuel q = some l → inorder syms1 fuel1 q = some l := by
  intro fuel
  induction fuel with
  | zero =>
    intro fuel1 q l _ h
    cases q with
    | none => cases fuel1 <;> simpa [inorder] using h
    | some a => simp [inorder] at h
  | succ f ih =>
    intro fuel1 q l hle h
    cases q with
    | none => cases fuel1 <;> simpa [inorder] using h
    | some a =>
      cases fuel1 with
      | zero => omega
      | succ f1 =>
        simp only [inorder] at h ⊢
        cases hs : syms[a]? with
        | none => simp [hs] at h
        | some s =>
          obtain ⟨s1, hs1, hn, hl, hr⟩ := hag a s hs
          simp only [hs] at h
          simp only [hs1]
          cases hnm : s.name with
          | none => simp [hnm] at h
          | some tn =>
            rw [hnm] at hn
            simp only [hnm] at h
            simp only [hn]
            cases hil : inorder syms f s.left with
            | none => simp [hil] at h
            | some ll =>
              cases hir : inorder syms f s.right with
              | none => simp [hil, hir] at h
              | some rr =>
                simp only [hil, hir] at h
                rw [hl, hr, ih f1 _ ll (by omega) hil, ih f1 _ rr (by omega) hir]
                exact h

theorem linksAgree_set_context {syms : List symbol_t} {p : Nat} {s : symbol_t}
    (hp : syms[p]? = some s) (c : Option Nat) :
    LinksAgree syms (syms.set p { s with context := c }) := by
  intro a s0 h0
  by_cases hpa : p = a
  · subst hpa
    rw [hp] at h0
    cases h0
    exact ⟨{ s with context := c }, by simp [List.getElem?_set_self (getElem?_lt hp)],
      rfl, rfl, rfl⟩
  · exact ⟨s0, by simp [List.getElem?_set_ne hpa, h0], rfl, rfl, rfl⟩

/-- What a named `open_symbol_context` that returns `SYM_NO_ERROR` did. -/
theorem open_named_ok {T T1 : Table} {n : CString}
    (h : open_symbol_context (some n) T = .ok (.SYM_NO_ERROR, T1)) :
    ∃ p s c cur, find_symbol (some n) T = .ok (some p) ∧ T.syms[p]? = some s ∧
      s.context = none ∧ T.current_context = some c ∧ T.ctxs[c]? = some cur ∧
      T1 = { T with
             syms := T.syms.set p { s with context := some T.ctxs.length }
             ctxs := (T.ctxs.set c { cur with next := some T.ctxs.length })
                       ++ [{ ALLOC_DS_context with prev := some c }]
             current_context := some T.ctxs.length } := by
  simp only [open_symbol_context] at h
  cases hf : find_symbol (some n) T with
  | error e => simp [hf] at h
  | ok r =>
    cases r with
    | none => simp [hf] at h
    | some p =>
      simp only [hf] at h
      cases ha : add_context (some p) T with
      | error e => simp [ha] at h
      | ok T' =>
        simp only [ha] at h
        have hT : T' = T1 := by
          injection h with h
          injection h
        subst hT
        simp only [add_context] at ha
        cases hc : T.current_context with
        | none => simp [hc] at ha
        | some c =>
          simp only [hc] at ha
          cases hp : T.syms[p]? with
          | none => simp [hp] at ha
          | some s =>
            simp only [hp] at ha
            cases hsc : s.context with
            | some x => simp [hsc] at ha
            | none =>
              simp only [hsc] at ha
              cases hx : T.ctxs[c]? with
              | none => simp [hx] at ha
              | some cur =>
                simp only [hx] at ha
                injection ha with ha
                exact ⟨p, s, c, cur, rfl, hp, hsc, rfl, hx, by rw [← ha]⟩

/-- What a `close_symbol_context` that returns `SYM_NO_ERROR` did. -/
theorem close_ok {T T1 : Table} (h : close_symbol_context T = .ok (.SYM_NO_ERROR, T1)) :
    ∃ c cur pc, T.current_context = some c ∧ T.ctxs[c]? = some cur ∧ cur.prev = some pc ∧
      T1 = { T with current_context := some pc, context_serial := 0 } := by
  simp only [close_symbol_context] at h
  cases hc : T.current_context with
  | none => simp [hc] at h
  | some c =>
    simp only [hc] at h
    cases hx : T.ctxs[c]? with
    | none => simp [hx] at h
    | some cur =>
      simp only [hx] at h
      cases hpc : cur.prev with
      | none => simp [hpc] at h
      | some pc =>
        simp only [hpc] at h
        cases hpx : T.ctxs[pc]? with
        | none => simp [hpx] at h
        | some prev =>
          simp only [hpx] at h
          cases hps : prev.sym with
          | none => simp [hps] at h
          | some sp =>
            simp only [hps] at h
            cases hsy : T.syms[sp]? with
            | none => simp [hsy] at h
            | some sym =>
              simp only [hsy] at h
              cases hnm : sym.name with
              | none => simp [hnm] at h
              | some nm =>
                simp only [hnm] at h
                split_ifs at h with h0
                · injection h with h
                  injection h with h1 h2
                  cases h1
                · injection h with h
                  injection h with h1 h2
                  exact ⟨c, cur, pc, rfl, hx, hpc, h2.symm⟩


theorem store_inorder_new_context (syms : List symbol_t) (ctxs : List symbol_context_t)
    (r : Option Nat) (k : Int) (x : symbol_context_t) (hx : x.sym = none) :
    store_inorder { syms := syms, ctxs := ctxs ++ [x], root_context := r,
                    current_context := some ctxs.length, context_serial := k } = some [] := by
  simp only [store_inorder, ctx_inorder]
  rw [List.getElem?_append_right (le_refl _)]
  simp only [Nat.sub_self, List.getElem?_cons_zero, hx]
  cases syms.length <;> rfl

/-! ## Anonymous names and the serial counter -/

theorem decimal_digits_length (w k : Nat) : (decimal_digits w k).length = w := by
  induction w generalizing k with
  | zero => rfl
  | succ w ih => simp [decimal_digits, ih]

theorem decimal_digits_range (w k : Nat) : ∀ d ∈ decimal_digits w k, 48 ≤ d ∧ d ≤ 57 := by
  induction w generalizing k with
  | zero => intro d hd; simp [decimal_digits] at hd
  | succ w ih =>
    intro d hd
    simp only [decimal_digits, List.mem_append, List.mem_singleton] at hd
    rcases hd with hd | rfl
    · exact ih _ d hd
    · have := Nat.mod_lt k (by decide : 10 > 0)
      omega

theorem decimal_value_digits (w k : Nat) : decimal_value (decimal_digits w k) = k % 10 ^ w := by
  induction w generalizing k with
  | zero => simp [decimal_digits, decimal_value, Nat.mod_one]
  | succ w ih =>
    have h := ih (k / 10)
    unfold decimal_value at h ⊢
    simp only [decimal_digits, List.foldl_append, List.foldl_cons, List.foldl_nil, h]
    rw [Nat.pow_succ, Nat.mul_comm (10 ^ w) 10, Nat.mod_mul]
    omega

theorem sprintf_09d_small (k : Nat) (hk : k < 10 ^ 9) :
    sprintf_09d (k : Int) = decimal_digits 9 k := by
  unfold sprintf_09d
  rw [if_pos (Int.natCast_nonneg k), Int.toNat_natCast, if_pos hk]

theorem sprintf_09d_value (k : Nat) (hk : k < 10 ^ 9) :
    decimal_value (sprintf_09d (k : Int)) = k := by
  rw [sprintf_09d_small k hk, decimal_value_digits, Nat.mod_eq_of_lt hk]

theorem store_symbol_serial {T T1 : Table} {p : Option Nat} {e : symbol_error_t}
    (h : store_symbol p T = .ok (e, T1)) : T1.context_serial = T.context_serial := by
  unfold store_symbol at h
  repeat' split at h
  all_goals (cases h <;> rfl)

theorem add_context_serial {T T1 : Table} {p : Option Nat}
    (h : add_context p T = .ok T1) : T1.context_serial = T.context_serial := by
  unfold add_context at h
  repeat' split at h
  all_goals (cases h <;> rfl)

theorem open_symbol_context_serial {T T1 : Table} {n : Option CString} {e : symbol_error_t}
    (h : open_symbol_context n T = .ok (e, T1)) : T.context_serial ≤ T1.context_serial := by
  unfold open_symbol_context at h
  cases n with
  | some nm =>
    simp only at h
    split at h
    · cases h
    · injection h with h; injection h with h1 h2; rw [← h2]
    · split at h
      · cases h
      · rename_i hadd
        injection h with h; injection h with h1 h2
        rw [← h2, add_context_serial hadd]
  | none =>
    simp only at h
    split at h
    · cases h
    · split at h
      · cases h
      · rename_i hst
        split at h
        · cases h
        · rename_i hadd
          injection h with h; injection h with h1 h2
          rw [← h2, add_context_serial hadd, store_symbol_serial hst]
          simp [create_symbol]

theorem run_calls_serial (cs : List Call) :
    ∀ {T T1 : Table} {codes : List symbol_error_t}, Call.close_context ∉ cs →
      run_calls T cs = .ok (codes, T1) → T.context_serial ≤ T1.context_serial := by
  induction cs with
  | nil =>
    intro T T1 codes _ h
    simp only [run_calls] at h
    injection h with h; injection h with h1 h2
    rw [h2]
  | cons c cs ih =>
    intro T T1 codes hno h
    simp only [List.mem_cons, not_or] at hno
    simp only [run_calls] at h
    split at h
    · cases h
    · rename_i r T' hrun
      split at h
      · cases h
      · rename_i rs T'' hrest
        injection h with h; injection h with h1 h2
        subst h2
        have h3 := ih hno.2 hrest
        have h4 : T.context_serial ≤ T'.context_serial := by
          cases c with
          | store n =>
            simp only [Call.run] at hrun
            rw [store_symbol_serial hrun]
            simp [create_symbol]
          | open_context n => exact open_symbol_context_serial hrun
          | close_context => exact absurd rfl hno.1
        omega

/-- On a store that is a finite tree, `store_symbol` of a named symbol that
is not in the store returns, with `SYM_NO_ERROR` or `SYM_EXISTS`, and leaves
the symbol itself, the file-scope variables and the context links alone. -/
theorem store_symbol_total {T : Table} {l : List (Nat × CString)} {p : Nat} {s : symbol_t}
    {nm : CString} (hord : store_inorder T = some l) (hp : T.syms[p]? = some s)
    (hn : s.name = some nm) (hfresh : p ∉ l.map Prod.fst) :
    ∃ e T1, store_symbol (some p) T = .ok (e, T1) ∧
      (e = .SYM_NO_ERROR ∨ e = .SYM_EXISTS) ∧
      T1.syms[p]? = some s ∧ T1.current_context = T.current_context ∧
      T1.context_serial = T.context_serial ∧ T1.root_context = T.root_context ∧
      T1.ctxs.length = T.ctxs.length ∧ T1.syms.length = T.syms.length ∧
      (∀ (c : Nat) (x : symbol_context_t), T.ctxs[c]? = some x →
        ∃ x1, T1.ctxs[c]? = some x1 ∧ x1.prev = x.prev ∧ x1.next = x.next) := by
  obtain ⟨c, ctx, t, hc, hx, hs, htl, hh⟩ := store_inorder_shape hord
  subst htl
  have hclen : c < T.ctxs.length := getElem?_lt hx
  simp only [store_symbol, hp, hn, hc, hx]
  cases hrt : ctx.sym with
  | none =>
    refine ⟨_, _, rfl, Or.inl rfl, hp, rfl, rfl, rfl, by simp, rfl, ?_⟩
    intro c1 x hx1
    by_cases hcc : c1 = c
    · subst hcc
      rw [hx] at hx1
      cases hx1
      exact ⟨{ ctx with sym := some p }, by simp [List.getElem?_set_self hclen], rfl, rfl⟩
    · exact ⟨x, by simp [List.getElem?_set_ne (Ne.symm hcc), hx1], rfl, rfl⟩
  | some r =>
    rw [hrt] at hs
    obtain ⟨hex, hins⟩ := store_loop_spec T.syms p nm t _ r hs (Nat.le_succ_of_le hh)
    cases hf : t.find nm with
    | some a =>
      simp only [hex a hf]
      exact ⟨_, _, rfl, Or.inr rfl, hp, rfl, rfl, rfl, rfl, rfl, fun c1 x h => ⟨x, h, rfl, rfl⟩⟩
    | none =>
      obtain ⟨b, sb, sb', hb, hsb, _, hloop, _⟩ := hins hf
      simp only [hloop]
      refine ⟨_, _, rfl, Or.inl rfl, ?_, rfl, rfl, rfl, rfl, by simp,
        fun c1 x h => ⟨x, h, rfl, rfl⟩⟩
      have hbp : b ≠ p := by
        rintro rfl
        exact hfresh hb
      simp [List.getElem?_set_ne hbp, hp]

/-! ## Opening and closing, read backwards -/

/-- What an `add_context` that returns did. -/
theorem add_context_ok {T T1 : Table} {sym : Option Nat} (h : add_context sym T = .ok T1) :
    ∃ p s c cur, sym = some p ∧ T.syms[p]? = some s ∧ s.context = none ∧
      T.current_context = some c ∧ T.ctxs[c]? = some cur ∧
      T1 = { T with
             syms := T.syms.set p { s with context := some T.ctxs.length }
             ctxs := (T.ctxs.set c { cur with next := some T.ctxs.length })
                       ++ [{ ALLOC_DS_context with prev := some c }]
             current_context := some T.ctxs.length } := by
  simp only [add_context] at h
  cases hc : T.current_context with
  | none => simp [hc] at h
  | some c =>
    simp only [hc] at h
    cases sym with
    | none => simp at h
    | some p =>
      simp only at h
      cases hp : T.syms[p]? with
      | none => simp [hp] at h
      | some s =>
        simp only [hp] at h
        cases hsc : s.context with
        | some x => simp [hsc] at h
        | none =>
          simp only [hsc] at h
          cases hx : T.ctxs[c]? with
          | none => simp [hx] at h
          | some cur =>
            simp only [hx] at h
            injection h with h
            exact ⟨p, s, c, cur, rfl, hp, hsc, rfl, hx, by rw [← h]⟩

theorem store_symbol_current {T T1 : Table} {p : Option Nat} {e : symbol_error_t}
    (h : store_symbol p T = .ok (e, T1)) : T1.current_context = T.current_context := by
  unfold store_symbol at h
  repeat' split at h
  all_goals (cases h <;> simp_all)

/-- Every `open_symbol_context` that returns `SYM_NO_ERROR` ends in an
`add_context`, made on a table with the same current context. -/
theorem open_ok_add {T T1 : Table} {name : Option CString}
    (h : open_symbol_context name T = .ok (.SYM_NO_ERROR, T1)) :
    ∃ p T0, add_context (some p) T0 = .ok T1 ∧ T0.current_context = T.current_context := by
  unfold open_symbol_context at h
  cases name with
  | some nm =>
    simp only at h
    split at h
    · cases h
    · cases h
    · rename_i p hfind
      split at h
      · cases h
      · rename_i T' hadd
        injection h with h; injection h with h1 h2
        subst h2
        exact ⟨p, T, hadd, rfl⟩
  | none =>
    simp only at h
    split at h
    · cases h
    · split at h
      · cases h
      · rename_i e T2 hst
        split at h
        · cases h
        · rename_i T3 hadd
          injection h with h; injection h with h1 h2
          subst h2
          exact ⟨_, T2, hadd, by rw [store_symbol_current hst]; rfl⟩

/-- What a `close_symbol_context` that returns `SYM_CONTEXT_ERROR` did: nothing. -/
theorem close_err {T T1 : Table} (h : close_symbol_context T = .ok (.SYM_CONTEXT_ERROR, T1)) :
    T1 = T := by
  unfold close_symbol_context at h
  repeat' split at h
  all_goals first
    | (cases h; done)
    | (injection h with h; injection h with h1 h2; exact h2.symm)

/-- What a `close_symbol_context` that returns read on its way: the current
context, its parent, and the first symbol of the parent's store. -/
theorem close_parent {T T1 : Table} {e : symbol_error_t}
    (h : close_symbol_context T = .ok (e, T1)) :
    ∃ c cur pc par sp, T.current_context = some c ∧ T.ctxs[c]? = some cur ∧
      cur.prev = some pc ∧ T.ctxs[pc]? = some par ∧ par.sym = some sp := by
  simp only [close_symbol_context] at h
  cases hc : T.current_context with
  | none => simp [hc] at h
  | some c =>
    simp only [hc] at h
    cases hx : T.ctxs[c]? with
    | none => simp [hx] at h
    | some cur =>
      simp only [hx] at h
      cases hpc : cur.prev with
      | none => simp [hpc] at h
      | some pc =>
        simp only [hpc] at h
        cases hpx : T.ctxs[pc]? with
        | none => simp [hpx] at h
        | some par =>
          simp only [hpx] at h
          cases hps : par.sym with
          | none => simp [hps] at h
          | some sp => exact ⟨c, cur, pc, par, sp, rfl, hx, hpc, hpx, hps⟩

/-! ## The resolver's stack -/

theorem clear_sym_stack_loop_spec (st : List (Option Nat)) (qs : List Nat) (cc : Option Nat) :
    ∀ fuel, qs.length < fuel →
      clear_sym_stack_loop fuel
          { sym_stack := st, symbol_stack := qs.map some, current_context := cc }
        = .ok { sym_stack := st, symbol_stack := [], current_context := cc } := by
  induction qs with
  | nil =>
    intro fuel hf
    cases fuel with
    | zero => omega
    | succ f => rfl
  | cons p qs ih =>
    intro fuel hf
    cases fuel with
    | zero => omega
    | succ f =>
      simp only [List.length_cons] at hf
      simp only [clear_sym_stack_loop, pop_sym_stack, List.map_cons]
      exact ih f (by omega)

theorem clear_sym_stack_spec (st : List (Option Nat)) (qs : List Nat) (cc : Option Nat) :
    clear_sym_stack { sym_stack := st, symbol_stack := qs.map some, current_context := cc }
      = .ok { sym_stack := st, symbol_stack := [], current_context := cc } := by
  unfold clear_sym_stack
  exact clear_sym_stack_loop_spec st qs cc _ (by simp)

theorem store_loop_never_invalid (syms : List symbol_t) (p : Nat) (nm : CString) :
    ∀ (fuel a : Nat),
      store_symbol_loop syms p nm fuel (some a) ≠ .error .fatal ∧
      ∀ syms1, store_symbol_loop syms p nm fuel (some a) ≠ .ok (.SYM_ERROR, syms1) := by
  intro fuel
  induction fuel with
  | zero =>
    intro a
    simp [store_symbol_loop]
  | succ f ih =>
    intro a
    simp only [store_symbol_loop]
    split
    · simp
    · split
      · simp
      · split
        · simp
        · split
          · split
            · simp
            · exact ih _
          · split
            · simp
            · exact ih _

theorem store_symbol_never_invalid (T : Table) (q : Option Nat) :
    store_symbol q T ≠ .error .fatal ∧ ∀ T1, store_symbol q T ≠ .ok (.SYM_ERROR, T1) := by
  unfold store_symbol
  split
  · simp
  · split
    · simp
    · split
      · simp
      · split
        · simp
        · split
          · simp
          · split
            · simp
            · split
              · rename_i e he
                refine ⟨?_, fun T1 hc => by cases hc⟩
                intro hc
                injection hc with hc
                rw [hc] at he
                exact (store_loop_never_invalid _ _ _ _ _).1 he
              · rename_i e syms1 he
                refine ⟨fun hc => (by cases hc), ?_⟩
                intro T1 hc
                injection hc with hc
                injection hc with h1 h2
                rw [h1] at he
                exact (store_loop_never_invalid _ _ _ _ _).2 _ he

/-! ## The invariant of the context chain -/

theorem store_loop_inv (syms : List symbol_t) (p : Nat) (nm : CString) :
    ∀ (fuel : Nat) (q : Option Nat) (e : symbol_error_t) (syms1 : List symbol_t),
      store_symbol_loop syms p nm fuel q = .ok (e, syms1) →
      syms1.length = syms.length ∧
      ∀ (a : Nat) (s : symbol_t), syms[a]? = some s →
        ∃ s1, syms1[a]? = some s1 ∧ s1.name = s.name ∧ s1.context = s.context := by
  intro fuel
  induction fuel with
  | zero =>
    intro q e syms1 h
    cases q <;> simp [store_symbol_loop] at h
  | succ f ih =>
    intro q e syms1 h
    cases q with
    | none => simp [store_symbol_loop] at h
    | some a =>
      simp only [store_symbol_loop] at h
      have hset : ∀ (t t1 : symbol_t), syms[a]? = some t → t1.name = t.name →
          t1.context = t.context →
          (syms.set a t1).length = syms.length ∧
          ∀ (b : Nat) (s : symbol_t), syms[b]? = some s →
            ∃ s1, (syms.set a t1)[b]? = some s1 ∧ s1.name = s.name ∧
              s1.context = s.context := by
        intro t t1 ht hn hc
        refine ⟨by simp, ?_⟩
        intro b s hb
        by_cases hab : a = b
        · subst hab
          rw [ht] at hb
          cases hb
          exact ⟨t1, by simp [List.getElem?_set_self (getElem?_lt ht)], hn, hc⟩
        · exact ⟨s, by simp [List.getElem?_set_ne hab, hb], rfl, rfl⟩
      split at h
      · cases h
      · rename_i t ht
        split at h
        · cases h
        · rename_i tn htn
          split at h
          · injection h with h; injection h with h1 h2
            subst h2
            exact ⟨rfl, fun b s hb => ⟨s, hb, rfl, rfl⟩⟩
          · split at h
            · split at h
              · injection h with h; injection h with h1 h2
                subst h2
                exact hset t _ ht rfl rfl
              · exact ih _ _ _ h
            · split at h
              · injection h with h; injection h with h1 h2
                subst h2
                exact hset t _ ht rfl rfl
              · exact ih _ _ _ h

/-- What a `store_symbol` that returns did, on any table. -/
theorem store_symbol_ok_inv {T T1 : Table} {q : Option Nat} {e : symbol_error_t}
    (h : store_symbol q T = .ok (e, T1)) :
    ∃ p s nm c ctx, q = some p ∧ T.syms[p]? = some s ∧ s.name = some nm ∧
      T.current_context = some c ∧ T.ctxs[c]? = some ctx ∧
      ((ctx.sym = none ∧ T1 = { T with ctxs := T.ctxs.set c { ctx with sym := some p } }) ∨
       (∃ r syms1, ctx.sym = some r ∧ T1 = { T with syms := syms1 } ∧
          syms1.length = T.syms.length ∧
          ∀ (a : Nat) (s0 : symbol_t), T.syms[a]? = some s0 →
            ∃ s1, syms1[a]? = some s1 ∧ s1.name = s0.name ∧ s1.context = s0.context)) := by
  unfold store_symbol at h
  cases q with
  | none => simp at h
  | some p =>
    simp only at h
    cases hp : T.syms[p]? with
    | none => simp [hp] at h
    | some s =>
      simp only [hp] at h
      cases hn : s.name with
      | none => simp [hn] at h
      | some nm =>
        simp only [hn] at h
        cases hc : T.current_context with
        | none => simp [hc] at h
        | some c =>
          simp only [hc] at h
          cases hx : T.ctxs[c]? with
          | none => simp [hx] at h
          | some ctx =>
            simp only [hx] at h
            refine ⟨p, s, nm, c, ctx, rfl, hp, hn, rfl, hx, ?_⟩
            cases hr : ctx.sym with
            | none =>
              simp only [hr] at h
              injection h with h; injection h with h1 h2
              left
              refine ⟨rfl, ?_⟩
              rw [← h2]
            | some r =>
              simp only [hr] at h
              right
              split at h
              · cases h
              · rename_i e1 syms1 hloop
                injection h with h; injection h with h1 h2
                obtain ⟨hlen, hattr⟩ := store_loop_inv _ _ _ _ _ _ _ hloop
                refine ⟨r, syms1, rfl, ?_, hlen, hattr⟩
                rw [← h2]

theorem chainInv_init : ChainInv init_table := by
  have h : init_table =
      { syms := [{ name := some object_name, name_type := SYM_NO_NAME_TYPE,
                   assign_type := SYM_NO_ASSIGN_TYPE, scope := SYM_PUBLIC_SCOPE_TYPE,
                   const_val := 0, left := none, right := none, context := some 0 }],
        ctxs := [{ sym := none, prev := none, next := none }],
        root_context := some 0, current_context := some 0, context_serial := 0 } := by
    decide
  rw [h]
  refine ⟨⟨0, rfl, by simp⟩, ?_, ?_, ?_, ⟨rfl, _, rfl, rfl⟩⟩
  · intro i x hx
    cases i with
    | zero =>
      simp only [List.getElem?_cons_zero] at hx
      cases hx
      simp
    | succ i => simp at hx
  · intro i x j hx hp
    cases i with
    | zero =>
      simp only [List.getElem?_cons_zero] at hx
      cases hx
      simp at hp
    | succ i => simp at hx
  · intro i x r hx hs
    cases i with
    | zero =>
      simp only [List.getElem?_cons_zero] at hx
      cases hx
      simp at hs
    | succ i => simp at hx

theorem chainInv_create (nm : Option CString) {T : Table} (h : ChainInv T) :
    ChainInv (create_symbol nm T).2 := by
  obtain ⟨h1, h2, h3, h4, h5, rs, hrs, hrc⟩ := h
  refine ⟨h1, h2, h3, ?_, h5, rs, ?_, hrc⟩
  · intro i x r hx hs
    obtain ⟨s, n, hs1, hn⟩ := h4 i x r hx hs
    refine ⟨s, n, ?_, hn⟩
    simp only [create_symbol]
    rw [List.getElem?_append_left (getElem?_lt hs1)]
    exact hs1
  · simp only [create_symbol]
    rw [List.getElem?_append_left (getElem?_lt hrs)]
    exact hrs

theorem chainInv_store {T T1 : Table} {q : Option Nat} {e : symbol_error_t}
    (hst : store_symbol q T = .ok (e, T1)) (h : ChainInv T) :
    ChainInv T1 ∧ CurrentStoreFull T1 := by
  obtain ⟨p, s, nm, c, ctx, _, hp, hn, hc, hx, hcase⟩ := store_symbol_ok_inv hst
  obtain ⟨h1, h2, h3, h4, h5, rs, hrs, hrc⟩ := h
  have hclen : c < T.ctxs.length := getElem?_lt hx
  rcases hcase with ⟨hempty, hT1⟩ | ⟨r, syms1, hr, hT1, hlen, hattr⟩
  · subst hT1
    have hget : ∀ i, (T.ctxs.set c { ctx with sym := some p })[i]? =
        if i = c then some { ctx with sym := some p } else T.ctxs[i]? := by
      intro i
      by_cases hic : i = c
      · subst hic
        simp [List.getElem?_set_self hclen]
      · simp [hic, List.getElem?_set_ne (Ne.symm hic)]
    refine ⟨⟨⟨c, hc, by simpa using hclen⟩, ?_, ?_, ?_, h5, rs, hrs, hrc⟩,
      ⟨c, { ctx with sym := some p }, p, hc, by simp [hget], rfl⟩⟩
    · intro i x hxi
      simp only [hget] at hxi
      by_cases hic : i = c
      · subst hic
        simp only [if_true] at hxi
        cases hxi
        exact h2 i ctx hx
      · simp only [hic, if_false] at hxi
        exact h2 i x hxi
    · intro i x j hxi hpj
      simp only [hget] at hxi
      have hold : ∃ x0, T.ctxs[i]? = some x0 ∧ x0.prev = some j := by
        by_cases hic : i = c
        · subst hic
          simp only [if_true] at hxi
          cases hxi
          exact ⟨ctx, hx, hpj⟩
        · simp only [hic, if_false] at hxi
          exact ⟨x, hxi, hpj⟩
      obtain ⟨x0, hx0, hp0⟩ := hold
      obtain ⟨hlt, par, r, hpar, hpr⟩ := h3 i x0 j hx0 hp0
      refine ⟨hlt, ?_⟩
      by_cases hjc : j = c
      · subst hjc
        exact ⟨{ ctx with sym := some p }, p, by simp [hget], rfl⟩
      · exact ⟨par, r, by simp [hget, hjc, hpar], hpr⟩
    · intro i x r hxi hs
      simp only [hget] at hxi
      by_cases hic : i = c
      · subst hic
        simp only [if_true] at hxi
        cases hxi
        simp only at hs
        cases hs
        exact ⟨s, nm, hp, hn⟩
      · simp only [hic, if_false] at hxi
        exact h4 i x r hxi hs
  · subst hT1
    refine ⟨⟨⟨c, hc, hclen⟩, h2, h3, ?_, h5, ?_⟩, ⟨c, ctx, r, hc, hx, hr⟩⟩
    · intro i x r0 hxi hs
      obtain ⟨s0, n0, hs0, hn0⟩ := h4 i x r0 hxi hs
      obtain ⟨s1, hs1, hn1, _⟩ := hattr r0 s0 hs0
      exact ⟨s1, n0, hs1, by rw [hn1, hn0]⟩
    · obtain ⟨s1, hs1, _, hc1⟩ := hattr 0 rs hrs
      exact ⟨s1, hs1, by rw [hc1, hrc]⟩

theorem chainInv_add_context {T T1 : Table} {sym : Option Nat}
    (hadd : add_context sym T = .ok T1) (h : ChainInv T) (hfull : CurrentStoreFull T) :
    ChainInv T1 := by
  obtain ⟨p, s, c, cur, _, hp, hsc, hc, hx, hT1⟩ := add_context_ok hadd
  obtain ⟨h1, h2, h3, h4, h5, rs, hrs, hrc⟩ := h
  obtain ⟨c', x', r', hc', hx', hr'⟩ := hfull
  rw [hc] at hc'
  injection hc' with hcc
  subst hcc
  rw [hx] at hx'
  injection hx' with hxx
  subst hxx
  have hclen : c < T.ctxs.length := getElem?_lt hx
  have hget : ∀ i, ((T.ctxs.set c { cur with next := some T.ctxs.length })
      ++ [{ ALLOC_DS_context with prev := some c }])[i]? =
      if i = T.ctxs.length then some { ALLOC_DS_context with prev := some c }
      else if i = c then some { cur with next := some T.ctxs.length } else T.ctxs[i]? := by
    intro i
    by_cases hiM : i = T.ctxs.length
    · subst hiM
      rw [List.getElem?_append_right (by simp)]
      simp
    · simp only [hiM, if_false]
      by_cases hlt : i < T.ctxs.length
      · rw [List.getElem?_append_left (by simpa using hlt)]
        by_cases hic : i = c
        · subst hic
          simp [List.getElem?_set_self hclen]
        · simp [hic, List.getElem?_set_ne (Ne.symm hic)]
      · have hge : T.ctxs.length < i := by omega
        rw [List.getElem?_eq_none (by simp; omega)]
        have hic : i ≠ c := by omega
        simp only [hic, if_false]
        rw [List.getElem?_eq_none (by omega)]
  have hp0 : p ≠ 0 := by
    rintro rfl
    rw [hrs] at hp
    cases hp
    rw [hrc] at hsc
    cases hsc
  have hsyms : ∀ (a : Nat) (s0 : symbol_t), T.syms[a]? = some s0 →
      ∃ s1, (T.syms.set p { s with context := some T.ctxs.length })[a]? = some s1 ∧
        s1.name = s0.name := by
    intro a s0 h0
    by_cases hpa : p = a
    · subst hpa
      rw [hp] at h0
      cases h0
      exact ⟨{ s with context := some T.ctxs.length },
        by simp [List.getElem?_set_self (getElem?_lt hp)], rfl⟩
    · exact ⟨s0, by simp [List.getElem?_set_ne hpa, h0], rfl⟩
  subst hT1
  refine ⟨⟨T.ctxs.length, rfl, by simp⟩, ?_, ?_, ?_, h5, rs, ?_, hrc⟩
  · intro i x hxi
    simp only [hget] at hxi
    by_cases hiM : i = T.ctxs.length
    · subst hiM
      simp only [if_true] at hxi
      cases hxi
      exact ⟨fun h => by simp at h, fun h => by omega⟩
    · simp only [hiM, if_false] at hxi
      by_cases hic : i = c
      · subst hic
        simp only [if_true] at hxi
        cases hxi
        exact h2 i cur hx
      · simp only [hic, if_false] at hxi
        exact h2 i x hxi
  · intro i x j hxi hpj
    simp only [hget] at hxi
    have hparent : ∀ j0, j0 < T.ctxs.length → (∃ par r, T.ctxs[j0]? = some par ∧ par.sym = some r) →
        ∃ par r, ((T.ctxs.set c { cur with next := some T.ctxs.length })
          ++ [{ ALLOC_DS_context with prev := some c }])[j0]? = some par ∧ par.sym = some r := by
      intro j0 hj0 ⟨par, r, hpar, hpr⟩
      have hjM : j0 ≠ T.ctxs.length := by omega
      by_cases hjc : j0 = c
      · subst hjc
        rw [hx] at hpar
        cases hpar
        exact ⟨{ cur with next := some T.ctxs.length }, r, by simp [hget, hjM], hpr⟩
      · exact ⟨par, r, by simp [hget, hjM, hjc, hpar], hpr⟩
    by_cases hiM : i = T.ctxs.length
    · subst hiM
      simp only [if_true] at hxi
      cases hxi
      simp only at hpj
      injection hpj with hpj
      subst hpj
      exact ⟨hclen, hparent _ hclen ⟨cur, r', hx, hr'⟩⟩
    · simp only [hiM, if_false] at hxi
      have hold : ∃ x0, T.ctxs[i]? = some x0 ∧ x0.prev = some j := by
        by_cases hic : i = c
        · subst hic
          simp only [if_true] at hxi
          cases hxi
          exact ⟨cur, hx, hpj⟩
        · simp only [hic, if_false] at hxi
          exact ⟨x, hxi, hpj⟩
      obtain ⟨x0, hx0, hp0'⟩ := hold
      obtain ⟨hlt, hpar⟩ := h3 i x0 j hx0 hp0'
      have hi : i < T.ctxs.length := getElem?_lt hx0
      exact ⟨hlt, hparent j (by omega) hpar⟩
  · intro i x r hxi hs
    simp only [hget] at hxi
    have hold : ∃ x0, T.ctxs[i]? = some x0 ∧ x0.sym = some r := by
      by_cases hiM : i = T.ctxs.length
      · subst hiM
        simp only [if_true] at hxi
        cases hxi
        simp [ALLOC_DS_context] at hs
      · simp only [hiM, if_false] at hxi
        by_cases hic : i = c
        · subst hic
          simp only [if_true] at hxi
          cases hxi
          exact ⟨cur, hx, hs⟩
        · simp only [hic, if_false] at hxi
          exact ⟨x, hxi, hs⟩
    obtain ⟨x0, hx0, hs0⟩ := hold
    obtain ⟨s0, n0, hs0', hn0⟩ := h4 i x0 r hx0 hs0
    obtain ⟨s1, hs1, hn1⟩ := hsyms r s0 hs0'
    exact ⟨s1, n0, hs1, by rw [hn1, hn0]⟩
  · simp [List.getElem?_set_ne hp0, hrs]

theorem find_some_full {T : Table} {nm : Option CString} {p : Nat}
    (h : find_symbol nm T = .ok (some p)) : CurrentStoreFull T := by
  unfold find_symbol at h
  cases nm with
  | none => simp at h
  | some n =>
    simp only at h
    cases hc : T.current_context with
    | none => simp [hc] at h
    | some c =>
      simp only [hc] at h
      cases hx : T.ctxs[c]? with
      | none => simp [hx] at h
      | some x =>
        simp only [hx] at h
        cases hs : x.sym with
        | none => simp [hs, find_symbol_loop] at h
        | some r => exact ⟨c, x, r, hc, hx, hs⟩

theorem chainInv_open {T T1 : Table} {name : Option CString} {e : symbol_error_t}
    (hopen : open_symbol_context name T = .ok (e, T1)) (h : ChainInv T) : ChainInv T1 := by
  unfold open_symbol_context at hopen
  cases name with
  | some nm =>
    simp only at hopen
    split at hopen
    · cases hopen
    · injection hopen with hopen; injection hopen with h1 h2
      rw [← h2]; exact h
    · rename_i p hfind
      split at hopen
      · cases hopen
      · rename_i T' hadd
        injection hopen with hopen; injection hopen with h1 h2
        rw [← h2]
        exact chainInv_add_context hadd h (find_some_full hfind)
  | none =>
    simp only at hopen
    split at hopen
    · cases hopen
    · split at hopen
      · cases hopen
      · rename_i e2 T2 hst
        split at hopen
        · cases hopen
        · rename_i T3 hadd
          injection hopen with hopen; injection hopen with h1 h2
          rw [← h2]
          have h0 : ChainInv { T with context_serial := T.context_serial + 1 } := h
          obtain ⟨hinv2, hfull2⟩ := chainInv_store hst (chainInv_create _ h0)
          exact chainInv_add_context hadd hinv2 hfull2

/-- What a `close_symbol_context` that returns did, whatever the code. -/
theorem close_inv {T T1 : Table} {e : symbol_error_t}
    (h : close_symbol_context T = .ok (e, T1)) :
    (e = .SYM_CONTEXT_ERROR ∧ T1 = T) ∨
    (e = .SYM_NO_ERROR ∧ ∃ pc par, T.ctxs[pc]? = some par ∧
      T1 = { T with current_context := some pc, context_serial := 0 }) := by
  obtain ⟨c, cur, pc, par, sp, hc, hx, hpc, hpar, hps⟩ := close_parent h
  simp only [close_symbol_context, hc, hx, hpc, hpar, hps] at h
  split at h
  · cases h
  · split at h
    · cases h
    · split at h
      · injection h with h; injection h with h1 h2
        exact Or.inl ⟨h1.symm, h2.symm⟩
      · injection h with h; injection h with h1 h2
        exact Or.inr ⟨h1.symm, pc, par, hpar, h2.symm⟩

theorem chainInv_close {T T1 : Table} {e : symbol_error_t}
    (hclose : close_symbol_context T = .ok (e, T1)) (h : ChainInv T) : ChainInv T1 := by
  rcases close_inv hclose with ⟨_, hT⟩ | ⟨_, pc, par, hpar, hT⟩
  · rw [hT]; exact h
  · obtain ⟨_, h2, h3, h4, h5⟩ := h
    rw [hT]
    exact ⟨⟨pc, rfl, getElem?_lt hpar⟩, h2, h3, h4, h5⟩

theorem chainInv_step {T T1 : Table} {st : Step} (hrun : st.run T = .ok T1)
    (h : ChainInv T) : ChainInv T1 := by
  cases st with
  | create n =>
    simp only [Step.run] at hrun
    injection hrun with hrun
    rw [← hrun]
    exact chainInv_create n h
  | store p =>
    simp only [Step.run] at hrun
    split at hrun
    · cases hrun
    · rename_i e T' hst
      injection hrun with hrun
      rw [← hrun]
      exact (chainInv_store hst h).1
  | open_context n =>
    simp only [Step.run] at hrun
    split at hrun
    · cases hrun
    · rename_i e T' hopen
      injection hrun with hrun
      rw [← hrun]
      exact chainInv_open hopen h
  | close_context =>
    simp only [Step.run] at hrun
    split at hrun
    · cases hrun
    · rename_i e T' hclose
      injection hrun with hrun
      rw [← hrun]
      exact chainInv_close hclose h

theorem chainInv_steps (steps : List Step) :
    ∀ {T T1 : Table}, run_steps T steps = .ok T1 → ChainInv T → ChainInv T1 := by
  induction steps with
  | nil =>
    intro T T1 hrun h
    simp only [run_steps] at hrun
    injection hrun with hrun
    rw [← hrun]; exact h
  | cons st rest ih =>
    intro T T1 hrun h
    simp only [run_steps] at hrun
    split at hrun
    · cases hrun
    · rename_i T' hst
      exact ih hrun (chainInv_step hst h)

theorem prev_chain_spec {ctxs : List symbol_context_t}
    (hroot : ∀ (i : Nat) (x : symbol_context_t), ctxs[i]? = some x → (x.prev = none ↔ i = 0))
    (hlt : ∀ (i : Nat) (x : symbol_context_t) (j : Nat), ctxs[i]? = some x →
      x.prev = some j → j < i) :
    ∀ (c : Nat), c < ctxs.length → ∀ fuel, c < fuel →
      ∃ chain, prev_chain ctxs fuel c = some chain ∧ chain.head? = some c ∧
        chain.getLast? = some 0 := by
  intro c
  induction c using Nat.strong_induction_on with
  | _ c ih =>
    intro hc fuel hf
    cases fuel with
    | zero => omega
    | succ f =>
      have hx : ctxs[c]? = some ctxs[c] := List.getElem?_eq_getElem hc
      simp only [prev_chain, hx]
      cases hp : (ctxs[c]).prev with
      | none =>
        have h0 : c = 0 := (hroot c _ hx).mp hp
        subst h0
        exact ⟨[0], rfl, rfl, rfl⟩
      | some j =>
        have hj : j < c := hlt c _ j hx hp
        obtain ⟨l, hl, hhead, hlast⟩ := ih j hj (by omega) f (by omega)
        simp only [hl]
        refine ⟨c :: l, rfl, rfl, ?_⟩
        cases l with
        | nil => simp at hhead
        | cons a l' => simpa [List.getLast?_cons_cons] using hlast

theorem chainInv_chain {T : Table} (h : ChainInv T) :
    ∃ c chain, T.current_context = some c ∧ context_chain T = some chain ∧
      chain.head? = some c ∧ chain.getLast? = some 0 := by
  obtain ⟨⟨c, hc, hclen⟩, h2, h3, _⟩ := h
  obtain ⟨chain, hch, hhead, hlast⟩ :=
    prev_chain_spec h2 (fun i x j hx hp => (h3 i x j hx hp).1) c hclen T.ctxs.length hclen
  exact ⟨c, chain, hc, by simp only [context_chain, hc, hch], hhead, hlast⟩

theorem chainInv_close_defined {T : Table} (h : ChainInv T) :
    (T.current_context ≠ some 0 → ∃ e T1, close_symbol_context T = .ok (e, T1)) ∧
    (T.current_context = some 0 → close_symbol_context T = .error .assertion) := by
  obtain ⟨⟨c, hc, hclen⟩, h2, h3, h4, _⟩ := h
  have hx : T.ctxs[c]? = some T.ctxs[c] := List.getElem?_eq_getElem hclen
  constructor
  · intro hne
    have hc0 : c ≠ 0 := by
      rintro rfl
      exact hne hc
    cases hp : (T.ctxs[c]).prev with
    | none => exact absurd ((h2 c _ hx).mp hp) hc0
    | some j =>
      obtain ⟨_, par, r, hpar, hr⟩ := h3 c _ j hx hp
      obtain ⟨s, nm, hs, hn⟩ := h4 j par r hpar hr
      simp only [close_symbol_context, hc, hx, hp, hpar, hr, hs, hn]
      split
      · exact ⟨_, _, rfl⟩
      · exact ⟨_, _, rfl⟩
  · intro h0
    rw [hc] at h0
    injection h0 with h0
    subst h0
    have hp : (T.ctxs[0]).prev = none := (h2 0 _ hx).mpr rfl
    simp only [close_symbol_context, hc, hx, hp]

/-! ## The claims about the symbol store -/

theorem count_name_eq_one {l : List (Nat × CString)} (h : ascending l) {n : CString}
    (hn : n ∈ l.map Prod.snd) : l.countP (fun x => decide (x.2 = n)) = 1 := by
  induction l with
  | nil => simp at hn
  | cons x xs ih =>
    unfold ascending at h
    rw [List.pairwise_cons] at h
    by_cases hx : x.2 = n
    · have h0 : xs.countP (fun y => decide (y.2 = n)) = 0 := by
        rw [List.countP_eq_zero]
        intro y hy hc
        have hlt := h.1 y hy
        rw [hx, of_decide_eq_true hc, strcmp_self] at hlt
        exact absurd hlt (by decide)
      rw [List.countP_cons_of_pos _ _ (by simpa using hx), h0]
    · have hn' : n ∈ xs.map Prod.snd := by
        simp only [List.map_cons, List.mem_cons] at hn
        rcases hn with hn | hn
        · exact absurd hn.symm hx
        · exact hn
      rw [List.countP_cons_of_neg _ _ (by simpa using hx)]
      exact ih h.2 hn'

/-- C1. A store that is a search tree (as every store built by `store_symbol`
is), after any further names are created and stored: every name stored is in
the store; each name of the store occurs once in its traversal; storing
another symbol of that name, one already allocated or one just created,
returns `SYM_EXISTS` and returns the table as it was, so the traversal of the
store is the same list. -/
theorem store_symbol_duplicate_rejected (T0 : Table) (l0 : List (Nat × CString))
    (h0 : store_inorder T0 = some l0) (hasc0 : ascending l0) (ns : List CString) :
    ∃ T l, store_names T0 ns = .ok T ∧ store_inorder T = some l ∧
      (∀ n ∈ ns, n ∈ l.map Prod.snd) ∧
      ∀ n ∈ l.map Prod.snd,
        l.countP (fun x => decide (x.2 = n)) = 1 ∧
        (∀ p s, T.syms[p]? = some s → s.name = some n →
          store_symbol (some p) T = .ok (.SYM_EXISTS, T)) ∧
        store_symbol (some (create_symbol (some n) T).1) (create_symbol (some n) T).2
          = .ok (.SYM_EXISTS, (create_symbol (some n) T).2) ∧
        store_inorder (create_symbol (some n) T).2 = some l := by
  obtain ⟨T, l, hrun, hord, hasc, hmem, _, _⟩ := store_names_spec ns h0 hasc0
  refine ⟨T, l, hrun, hord, fun n hn => (hmem n).mpr (Or.inr hn), ?_⟩
  intro n hn
  refine ⟨count_name_eq_one hasc hn, ?_, ?_,
    create_symbol_inorder (some n) hord⟩
  · intro p s hp hs
    exact store_dup_spec hord hasc hp hs hn
  · exact store_dup_spec (create_symbol_inorder (some n) hord) hasc
      (create_symbol_get (some n) T) rfl hn

theorem store_symbol_duplicate_rejected_witness :
    store_inorder init_table = some [] ∧ ascending ([] : List (Nat × CString)) ∧
    ∃ T l, store_names init_table [ascii "asdf", ascii "qwer", ascii "asdf"] = .ok T ∧
      store_inorder T = some l ∧
      (∀ n ∈ [ascii "asdf", ascii "qwer", ascii "asdf"], n ∈ l.map Prod.snd) ∧
      ∀ n ∈ l.map Prod.snd,
        l.countP (fun x => decide (x.2 = n)) = 1 ∧
        (∀ p s, T.syms[p]? = some s → s.name = some n →
          store_symbol (some p) T = .ok (.SYM_EXISTS, T)) ∧
        store_symbol (some (create_symbol (some n) T).1) (create_symbol (some n) T).2
          = .ok (.SYM_EXISTS, (create_symbol (some n) T).2) ∧
        store_inorder (create_symbol (some n) T).2 = some l :=
  ⟨by decide, by decide, store_symbol_duplicate_rejected init_table [] (by decide) (by decide)
    [ascii "asdf", ascii "qwer", ascii "asdf"]⟩

/-- C2. Starting from a store whose in-order traversal is strictly ascending
(the empty store is one), creating and storing any list of names runs without
a fault and leaves a store whose in-order traversal is strictly ascending in
`strcmp` order and holds exactly the names it had and those stored. -/
theorem store_symbol_keeps_bst_order (T0 : Table) (l0 : List (Nat × CString))
    (h0 : store_inorder T0 = some l0) (hasc0 : ascending l0) (ns : List CString) :
    ∃ T l, store_names T0 ns = .ok T ∧ store_inorder T = some l ∧ ascending l ∧
      ∀ m, m ∈ l.map Prod.snd ↔ m ∈ l0.map Prod.snd ∨ m ∈ ns := by
  obtain ⟨T, l, hrun, hord, hasc, hmem, _, _⟩ := store_names_spec ns h0 hasc0
  exact ⟨T, l, hrun, hord, hasc, hmem⟩

theorem store_symbol_keeps_bst_order_witness :
    store_inorder init_table = some [] ∧ ascending ([] : List (Nat × CString)) ∧
    ∃ T l, store_names init_table resolve_test_names = .ok T ∧ store_inorder T = some l ∧
      ascending l ∧
      ∀ m, m ∈ l.map Prod.snd ↔
        m ∈ ([] : List (Nat × CString)).map Prod.snd ∨ m ∈ resolve_test_names :=
  ⟨by decide, by decide,
    store_symbol_keeps_bst_order init_table [] (by decide) (by decide) resolve_test_names⟩

/-- C3. In a store that is a search tree, storing a fresh symbol (allocated,
not in the store, both links null) whose name the store does not hold returns
`SYM_NO_ERROR`; afterwards, in the same context, `find_symbol` of that name
returns that very symbol and `find_symbol` of every other name returns what it
returned before. -/
theorem store_then_find (T : Table) (l : List (Nat × CString)) (p : Nat) (s : symbol_t)
    (nm : CString) (hord : store_inorder T = some l) (hasc : ascending l)
    (hp : T.syms[p]? = some s) (hn : s.name = some nm)
    (hl : s.left = none) (hr : s.right = none)
    (hfresh : p ∉ l.map Prod.fst) (hnew : nm ∉ l.map Prod.snd) :
    ∃ T', store_symbol (some p) T = .ok (.SYM_NO_ERROR, T') ∧
      T'.current_context = T.current_context ∧
      find_symbol (some nm) T' = .ok (some p) ∧
      ∀ m, m ≠ nm → find_symbol (some m) T' = find_symbol (some m) T := by
  have hnew' : ∀ x ∈ l, x.2 ≠ nm := fun x hx hc => hnew (List.mem_map.mpr ⟨x, hx, hc⟩)
  obtain ⟨T', l', hst, _, _, _, hself, hother, _, _, hframe⟩ :=
    store_fresh_spec hord hasc hp hn hl hr hfresh hnew'
  exact ⟨T', hst, hframe.1, hself, hother⟩

set_option maxRecDepth 100000 in
theorem store_then_find_witness :
    store_inorder fresh_test_table = some resolve_test_inorder ∧
    ascending resolve_test_inorder ∧
    fresh_test_table.syms[15]? = some { ALLOC_DS_symbol with name := some (ascii "zzzz") } ∧
    15 ∉ resolve_test_inorder.map Prod.fst ∧
    ascii "zzzz" ∉ resolve_test_inorder.map Prod.snd ∧
    ∃ T1, store_symbol (some 15) fresh_test_table = .ok (.SYM_NO_ERROR, T1) ∧
      T1.current_context = fresh_test_table.current_context ∧
      find_symbol (some (ascii "zzzz")) T1 = .ok (some 15) ∧
      ∀ m, m ≠ ascii "zzzz" →
        find_symbol (some m) T1 = find_symbol (some m) fresh_test_table :=
  ⟨by decide, by decide, by decide, by decide, by decide,
    store_then_find fresh_test_table resolve_test_inorder 15
      { ALLOC_DS_symbol with name := some (ascii "zzzz") } (ascii "zzzz")
      (by decide) (by decide) (by decide) rfl rfl rfl (by decide) (by decide)⟩

/-- C4. In a store that is a search tree, `find_symbol` returns without a
fault; it returns a symbol exactly when the store holds a symbol of the name
asked for; the symbol returned is in the store and has that name.  In the
tables of both tests, `find_symbol` of the name "mnbgdf", which was not
stored, returns no match. -/
theorem find_symbol_correct (T : Table) (l : List (Nat × CString)) (m : CString)
    (hord : store_inorder T = some l) (hasc : ascending l) :
    (∃ r, find_symbol (some m) T = .ok r ∧
      (r.isSome ↔ m ∈ l.map Prod.snd) ∧
      ∀ a, r = some a → (a, m) ∈ l ∧ ∃ s, T.syms[a]? = some s ∧ s.name = some m) ∧
    find_symbol (some (ascii "mnbgdf")) (test_table store_test_names) = .ok none ∧
    find_symbol (some (ascii "mnbgdf")) (test_table resolve_test_names) = .ok none := by
  refine ⟨?_, by decide, by decide⟩
  obtain ⟨c, ctx, t, hc, hx, hs, htl, hh⟩ := store_inorder_shape hord
  subst htl
  refine ⟨t.find m, find_symbol_shape hc hx hs hh m, ?_, ?_⟩
  · constructor
    · intro h
      obtain ⟨a, ha⟩ := Option.isSome_iff_exists.mp h
      exact List.mem_map.mpr ⟨(a, m), find_mem ha, rfl⟩
    · intro h
      obtain ⟨x, hx1, hx2⟩ := List.mem_map.mp h
      have : t.find m = some x.1 := mem_find hasc (by rw [← hx2]; exact hx1)
      rw [this]; rfl
  · intro a ha
    have hmem := find_mem ha
    exact ⟨hmem, shape_name hs _ hmem⟩

set_option maxRecDepth 100000 in
theorem find_symbol_correct_witness :
    store_inorder (test_table resolve_test_names) = some resolve_test_inorder ∧
    ascending resolve_test_inorder ∧
    (∃ r, find_symbol (some (ascii "qwer")) (test_table resolve_test_names) = .ok r ∧
      (r.isSome ↔ ascii "qwer" ∈ resolve_test_inorder.map Prod.snd) ∧
      ∀ a, r = some a → (a, ascii "qwer") ∈ resolve_test_inorder ∧
        ∃ s, (test_table resolve_test_names).syms[a]? = some s ∧
          s.name = some (ascii "qwer")) ∧
    find_symbol (some (ascii "mnbgdf")) (test_table store_test_names) = .ok none ∧
    find_symbol (some (ascii "mnbgdf")) (test_table resolve_test_names) = .ok none :=
  ⟨by decide, by decide,
    find_symbol_correct (test_table resolve_test_names) resolve_test_inorder (ascii "qwer")
      (by decide) (by decide)⟩

/-! ## The claims about contexts -/

/-- C5, the code at the failing inputs.  After `init_symbol_table`, storing
"a" and opening a context on it, the current context is context 1 and its
parent is the root context 0, the one attached to the root symbol; yet
`close_symbol_context` returns `SYM_NO_ERROR` and makes the root context
current.  After storing "object" in context 1 and opening a context on it,
the parent of the current context 2 is context 1, not the root; yet
`close_symbol_context` returns `SYM_CONTEXT_ERROR`. -/
theorem close_symbol_context_tests_store_root :
    (run_calls init_table [.store (ascii "a"), .open_context (some (ascii "a"))]
        = .ok ([.SYM_NO_ERROR, .SYM_NO_ERROR], close_test_table) ∧
      close_test_table.current_context = some 1 ∧
      close_test_table.ctxs[1]?.map (fun c => c.prev) = some (some 0) ∧
      close_test_table.root_context = some 0 ∧
      close_test_table.syms[0]?.map (fun s => s.context) = some (some 0) ∧
      close_symbol_context close_test_table = .ok (.SYM_NO_ERROR,
        { close_test_table with current_context := some 0, context_serial := 0 })) ∧
    (run_calls close_test_table [.store object_name, .open_context (some object_name)]
        = .ok ([.SYM_NO_ERROR, .SYM_NO_ERROR], close_test_table_2) ∧
      close_test_table_2.current_context = some 2 ∧
      close_test_table_2.ctxs[2]?.map (fun c => c.prev) = some (some 1) ∧
      close_test_table_2.root_context = some 0 ∧
      close_test_table_2.syms[0]?.map (fun s => s.context) = some (some 0) ∧
      close_symbol_context close_test_table_2
        = .ok (.SYM_CONTEXT_ERROR, close_test_table_2)) := by
  decide

/-- C6, as the code has it.  When `open_symbol_context(n)` returned
`SYM_NO_ERROR`, any names were then created and stored in the new context, and
`close_symbol_context` returned `SYM_NO_ERROR`: the current context is again
the one the open started from, `find_symbol(n)` finds a symbol that still
owns the context opened, and the store of that context still holds exactly
the names stored; but opening a context on `n` again fails the assertion of
`add_context`. -/
theorem reopen_closed_context_asserts (T T1 T2 T3 : Table) (n : CString) (ns : List CString)
    (h1 : open_symbol_context (some n) T = .ok (.SYM_NO_ERROR, T1))
    (h2 : store_names T1 ns = .ok T2)
    (h3 : close_symbol_context T2 = .ok (.SYM_NO_ERROR, T3)) :
    T3.current_context = T.current_context ∧
    open_symbol_context (some n) T3 = .error .assertion ∧
    ∃ p s l, find_symbol (some n) T3 = .ok (some p) ∧ T3.syms[p]? = some s ∧
      s.context = some T.ctxs.length ∧
      ctx_inorder T3 T.ctxs.length = some l ∧ ascending l ∧
      ∀ m, m ∈ l.map Prod.snd ↔ m ∈ ns := by
  obtain ⟨p, s, c, cur, hfind, hp, hsc, hc, hx, hT1⟩ := open_named_ok h1
  have hcM : c < T.ctxs.length := getElem?_lt hx
  have hpN : p < T.syms.length := getElem?_lt hp
  have hord1 : store_inorder T1 = some [] := by
    rw [hT1]
    have := store_inorder_new_context (T.syms.set p { s with context := some T.ctxs.length })
      (T.ctxs.set c { cur with next := some T.ctxs.length }) T.root_context T.context_serial
      { ALLOC_DS_context with prev := some c } rfl
    simpa using this
  have hcur1 : T1.current_context = some T.ctxs.length := by rw [hT1]
  have hsyms1 : T1.syms = T.syms.set p { s with context := some T.ctxs.length } := by rw [hT1]
  have hctxM : T1.ctxs[T.ctxs.length]? = some { ALLOC_DS_context with prev := some c } := by
    rw [hT1]
    simp only
    rw [List.getElem?_append_right (by simp)]
    simp
  have hctxc : T1.ctxs[c]? = some { cur with next := some T.ctxs.length } := by
    rw [hT1]
    simp only
    rw [List.getElem?_append_left (by simpa using hcM)]
    simp [List.getElem?_set_self hcM]
  obtain ⟨T2', l2, hrun, hord2, hasc2, hmem2, _, hfr⟩ :=
    store_names_spec ns hord1 (by unfold ascending; exact List.Pairwise.nil)
  rw [h2] at hrun
  injection hrun with hrun
  subst hrun
  obtain ⟨f1, _, _, _, f5, f6, f7, f8, _⟩ := hfr
  obtain ⟨c2, cur2, pc, hc2, hx2, hpc, hT3⟩ := close_ok h3
  rw [f1, hcur1] at hc2
  injection hc2 with hc2
  subst hc2
  obtain ⟨x1, hx1, hprev1, _⟩ := f7 _ _ hctxM
  rw [hx2] at hx1
  injection hx1 with hx1
  subst hx1
  rw [hprev1] at hpc
  injection hpc with hpc
  subst hpc
  have hcur3 : T3.current_context = some c := by rw [hT3]
  have hctx3 : T3.ctxs[c]? = some { cur with next := some T.ctxs.length } := by
    rw [hT3]
    simp only
    rw [f6 c (by rw [hcur1]; intro h; injection h with h; omega), hctxc]
  have hlen1 : T1.syms.length = T.syms.length := by rw [hsyms1]; simp
  have hsym3 : ∀ q, q < T.syms.length → T3.syms[q]? = T1.syms[q]? := by
    intro q hq
    rw [hT3]
    exact f8 q (by omega) (by simp)
  have hag : LinksAgree T.syms T3.syms := by
    intro a s0 h0
    obtain ⟨s1, hs1, e1, e2, e3⟩ :=
      linksAgree_set_context hp (some T.ctxs.length) a s0 h0
    refine ⟨s1, ?_, e1, e2, e3⟩
    rw [hsym3 a (getElem?_lt h0), hsyms1]
    exact hs1
  have hfind0 : find_symbol_loop T.syms n (T.syms.length + 1) cur.sym = .ok (some p) := by
    simpa [find_symbol, hc, hx] using hfind
  have hfind3 : find_symbol (some n) T3 = .ok (some p) := by
    simp only [find_symbol, hcur3, hctx3]
    refine find_loop_congr n hag _ _ _ _ ?_ hfind0
    rw [hT3]
    simp only
    omega
  have hp3 : T3.syms[p]? = some { s with context := some T.ctxs.length } := by
    rw [hsym3 p hpN, hsyms1]
    simp [List.getElem?_set_self hpN]
  refine ⟨by rw [hcur3, hc], ?_, p, _, l2, hfind3, hp3, rfl, ?_, hasc2, ?_⟩
  · simp [open_symbol_context, hfind3, add_context, hcur3, hp3]
  · have : store_inorder T2 = ctx_inorder T2 T.ctxs.length := by
      simp only [store_inorder, f1, hcur1]
    rw [← hord2, this, hT3]
    rfl
  · intro m
    rw [hmem2]
    simp


theorem reopen_closed_context_asserts_witness :
    open_symbol_context (some (ascii "x")) reopen_test_table
      = .ok (.SYM_NO_ERROR, reopen_test_table_1) ∧
    store_names reopen_test_table_1 [ascii "y"] = .ok reopen_test_table_2 ∧
    close_symbol_context reopen_test_table_2 = .ok (.SYM_NO_ERROR, reopen_test_table_3) ∧
    reopen_test_table_3.current_context = reopen_test_table.current_context ∧
    open_symbol_context (some (ascii "x")) reopen_test_table_3 = .error .assertion ∧
    ∃ p s l, find_symbol (some (ascii "x")) reopen_test_table_3 = .ok (some p) ∧
      reopen_test_table_3.syms[p]? = some s ∧
      s.context = some reopen_test_table.ctxs.length ∧
      ctx_inorder reopen_test_table_3 reopen_test_table.ctxs.length = some l ∧ ascending l ∧
      ∀ m, m ∈ l.map Prod.snd ↔ m ∈ [ascii "y"] :=
  ⟨by decide, by decide, by decide,
    reopen_closed_context_asserts reopen_test_table reopen_test_table_1 reopen_test_table_2
      reopen_test_table_3 (ascii "x") [ascii "y"] (by decide) (by decide) (by decide)⟩

/-- C6 fails as stated: in the context of "a", which holds "x", opening a
context on "x" returns `SYM_NO_ERROR`, "y" is stored there, closing returns
`SYM_NO_ERROR` and the context of "a" is current again with "x" in its store;
yet no table is the result of a second `open_symbol_context("x")` with
`SYM_NO_ERROR`. -/
theorem reopen_closed_context_counterexample :
    open_symbol_context (some (ascii "x")) reopen_test_table
      = .ok (.SYM_NO_ERROR, reopen_test_table_1) ∧
    store_names reopen_test_table_1 [ascii "y"] = .ok reopen_test_table_2 ∧
    close_symbol_context reopen_test_table_2 = .ok (.SYM_NO_ERROR, reopen_test_table_3) ∧
    reopen_test_table_3.current_context = reopen_test_table.current_context ∧
    find_symbol (some (ascii "x")) reopen_test_table_3 = .ok (some 2) ∧
    ¬ ∃ T4, open_symbol_context (some (ascii "x")) reopen_test_table_3
      = .ok (.SYM_NO_ERROR, T4) := by
  refine ⟨by decide, by decide, by decide, by decide, by decide, ?_⟩
  rintro ⟨T4, h⟩
  have hfail : open_symbol_context (some (ascii "x")) reopen_test_table_3
      = .error .assertion := by decide
  rw [hfail] at h
  cases h

/-- C7. When the store of the current context is a finite tree of named
symbols none of which has the name `n`, `open_symbol_context(n)` returns
`SYM_NOT_FOUND` and returns the table as it was, whatever the stores of the
other contexts hold. -/
theorem open_symbol_context_not_found (T : Table) (l : List (Nat × CString)) (n : CString)
    (hord : store_inorder T = some l) (hn : n ∉ l.map Prod.snd) :
    open_symbol_context (some n) T = .ok (.SYM_NOT_FOUND, T) := by
  obtain ⟨c, ctx, t, hc, hx, hs, htl, hh⟩ := store_inorder_shape hord
  subst htl
  have hfind : find_symbol (some n) T = .ok none := by
    rw [find_symbol_shape hc hx hs hh]
    cases hf : t.find n with
    | none => rfl
    | some a => exact absurd (List.mem_map.mpr ⟨(a, n), find_mem hf, rfl⟩) hn
  simp [open_symbol_context, hfind]

theorem open_symbol_context_not_found_witness :
    store_inorder ancestor_test_table = some [] ∧
    ascii "n" ∉ ([] : List (Nat × CString)).map Prod.snd ∧
    ctx_inorder ancestor_test_table 0 = some [(1, ascii "a"), (2, ascii "n")] ∧
    ancestor_test_table.current_context = some 1 ∧
    ancestor_test_table.ctxs[1]?.map (fun c => c.prev) = some (some 0) ∧
    open_symbol_context (some (ascii "n")) ancestor_test_table
      = .ok (.SYM_NOT_FOUND, ancestor_test_table) :=
  ⟨by decide, by decide, by decide, by decide, by decide,
    open_symbol_context_not_found ancestor_test_table [] (ascii "n") (by decide) (by decide)⟩

/-- C8. When `find_symbol(n)` returns a symbol `p` that has no nested
context, `open_symbol_context(n)` returns `SYM_NO_ERROR`; the current context
is then a newly allocated context with an empty store whose `prev` is the
former current context; the `next` of the former current context is the new
context; the nested context of `p` is the new context; nothing else changes in
any symbol or any other context, the root pointer and the serial counter stay,
and every store that had an in-order traversal has the same traversal. -/
theorem open_symbol_context_named_effect (T : Table) (n : CString) (p : Nat) (s : symbol_t)
    (hfind : find_symbol (some n) T = .ok (some p)) (hp : T.syms[p]? = some s)
    (hctx : s.context = none) :
    ∃ c cur T1, T.current_context = some c ∧ T.ctxs[c]? = some cur ∧
      open_symbol_context (some n) T = .ok (.SYM_NO_ERROR, T1) ∧
      T1.current_context = some T.ctxs.length ∧
      T1.ctxs.length = T.ctxs.length + 1 ∧
      T1.ctxs[T.ctxs.length]? = some { sym := none, prev := some c, next := none } ∧
      store_inorder T1 = some [] ∧
      T1.ctxs[c]? = some { cur with next := some T.ctxs.length } ∧
      T1.syms[p]? = some { s with context := some T.ctxs.length } ∧
      T1.syms.length = T.syms.length ∧
      (∀ q, q ≠ p → T1.syms[q]? = T.syms[q]?) ∧
      (∀ c1, c1 ≠ c → c1 < T.ctxs.length → T1.ctxs[c1]? = T.ctxs[c1]?) ∧
      T1.root_context = T.root_context ∧ T1.context_serial = T.context_serial ∧
      ∀ c1 l, ctx_inorder T c1 = some l → ctx_inorder T1 c1 = some l := by
  cases hc : T.current_context with
  | none => simp [find_symbol, hc] at hfind
  | some c =>
    cases hx : T.ctxs[c]? with
    | none => simp [find_symbol, hc, hx] at hfind
    | some cur =>
      have hcM : c < T.ctxs.length := getElem?_lt hx
      have hpN : p < T.syms.length := getElem?_lt hp
      have hctxc : ((T.ctxs.set c { cur with next := some T.ctxs.length })
          ++ [{ ALLOC_DS_context with prev := some c }])[c]?
          = some { cur with next := some T.ctxs.length } := by
        rw [List.getElem?_append_left (by simpa using hcM)]
        simp [List.getElem?_set_self hcM]
      refine ⟨c, cur, { T with
          syms := T.syms.set p { s with context := some T.ctxs.length }
          ctxs := (T.ctxs.set c { cur with next := some T.ctxs.length })
                    ++ [{ ALLOC_DS_context with prev := some c }]
          current_context := some T.ctxs.length }, rfl, hx, ?_, rfl, by simp, ?_, ?_, hctxc,
        by simp [List.getElem?_set_self hpN], by simp, ?_, ?_, rfl, rfl, ?_⟩
      · simp [open_symbol_context, hfind, add_context, hc, hp, hctx, hx]
      · simp only
        rw [List.getElem?_append_right (by simp)]
        simp [ALLOC_DS_context]
      · have := store_inorder_new_context
          (T.syms.set p { s with context := some T.ctxs.length })
          (T.ctxs.set c { cur with next := some T.ctxs.length }) T.root_context
          T.context_serial { ALLOC_DS_context with prev := some c } rfl
        simpa using this
      · intro q hq
        simp [List.getElem?_set_ne (Ne.symm hq)]
      · intro c1 hne hlt
        simp only
        rw [List.getElem?_append_left (by simpa using hlt)]
        simp [List.getElem?_set_ne (Ne.symm hne)]
      · intro c1 l hl
        simp only [ctx_inorder] at hl ⊢
        cases hx1 : T.ctxs[c1]? with
        | none => simp [hx1] at hl
        | some x1 =>
          simp only [hx1] at hl
          have hag := linksAgree_set_context hp (some T.ctxs.length)
          by_cases hcc : c1 = c
          · subst hcc
            rw [hx] at hx1
            cases hx1
            simp only [hctxc, List.length_set]
            exact inorder_congr hag _ _ _ _ (le_refl _) hl
          · have : ((T.ctxs.set c { cur with next := some T.ctxs.length })
                ++ [{ ALLOC_DS_context with prev := some c }])[c1]? = some x1 := by
              rw [List.getElem?_append_left (by simpa using getElem?_lt hx1)]
              simp [List.getElem?_set_ne (Ne.symm hcc), hx1]
            simp only [this, List.length_set]
            exact inorder_congr hag _ _ _ _ (le_refl _) hl

theorem open_symbol_context_named_effect_witness :
    find_symbol (some (ascii "a")) (test_table [ascii "a"]) = .ok (some 1) ∧
    (test_table [ascii "a"]).syms[1]? = some { ALLOC_DS_symbol with name := some (ascii "a") } ∧
    ∃ c cur T1, (test_table [ascii "a"]).current_context = some c ∧
      (test_table [ascii "a"]).ctxs[c]? = some cur ∧
      open_symbol_context (some (ascii "a")) (test_table [ascii "a"])
        = .ok (.SYM_NO_ERROR, T1) ∧
      T1.current_context = some (test_table [ascii "a"]).ctxs.length ∧
      T1.ctxs.length = (test_table [ascii "a"]).ctxs.length + 1 ∧
      T1.ctxs[(test_table [ascii "a"]).ctxs.length]?
        = some { sym := none, prev := some c, next := none } ∧
      store_inorder T1 = some [] ∧
      T1.ctxs[c]? = some { cur with next := some (test_table [ascii "a"]).ctxs.length } ∧
      T1.syms[1]? = some { name := some (ascii "a"), name_type := 0, assign_type := 0,
                           scope := 0, const_val := 0, left := none, right := none,
                           context := some (test_table [ascii "a"]).ctxs.length } ∧
      T1.syms.length = (test_table [ascii "a"]).syms.length ∧
      (∀ q, q ≠ 1 → T1.syms[q]? = (test_table [ascii "a"]).syms[q]?) ∧
      (∀ c1, c1 ≠ c → c1 < (test_table [ascii "a"]).ctxs.length →
        T1.ctxs[c1]? = (test_table [ascii "a"]).ctxs[c1]?) ∧
      T1.root_context = (test_table [ascii "a"]).root_context ∧
      T1.context_serial = (test_table [ascii "a"]).context_serial ∧
      ∀ c1 l, ctx_inorder (test_table [ascii "a"]) c1 = some l → ctx_inorder T1 c1 = some l :=
  ⟨by decide, by decide,
    open_symbol_context_named_effect (test_table [ascii "a"]) (ascii "a") 1
      { ALLOC_DS_symbol with name := some (ascii "a") } (by decide) (by decide) rfl⟩

/-- C9, the code at the failing input.  After `init_symbol_table`, storing
"x", opening a context on it, opening an anonymous context and closing it,
the context of "x" (context 1) is current, the counter is 0 and the store
holds symbol 2, named "000000000", which owns context 2.  A further
`open_symbol_context(NULL)` returns `SYM_NO_ERROR` and makes the new context 3
current; its owner is the new symbol 3, also named "000000000", which is
not in the store of context 1; after closing, `find_symbol` of that name in
context 1 returns symbol 2, whose context is 2, not 3. -/
theorem open_anonymous_after_close_not_stored :
    run_calls init_table [.store (ascii "x"), .open_context (some (ascii "x")),
        .open_context none, .close_context]
      = .ok ([.SYM_NO_ERROR, .SYM_NO_ERROR, .SYM_NO_ERROR, .SYM_NO_ERROR], anon_test_table) ∧
    anon_test_table.current_context = some 1 ∧ anon_test_table.context_serial = 0 ∧
    ctx_inorder anon_test_table 1 = some [(2, sprintf_09d 0)] ∧
    open_symbol_context none anon_test_table = .ok (.SYM_NO_ERROR, anon_test_table_1) ∧
    anon_test_table_1.current_context = some 3 ∧
    anon_test_table_1.syms[3]?.map (fun s => (s.name, s.context))
      = some (some (sprintf_09d 0), some 3) ∧
    ctx_inorder anon_test_table_1 1 = some [(2, sprintf_09d 0)] ∧
    close_symbol_context anon_test_table_1 = .ok (.SYM_NO_ERROR, anon_test_table_2) ∧
    anon_test_table_2.current_context = some 1 ∧
    find_symbol (some (sprintf_09d 0)) anon_test_table_2 = .ok (some 2) ∧
    anon_test_table_2.syms[2]?.map (fun s => s.context) = some (some 2) := by
  decide

/-- C10. In a table whose current store is a finite tree and whose serial
counter is `k` with `0 ≤ k < 10^9`, `open_symbol_context(NULL)` returns
`SYM_NO_ERROR`; the symbol it creates owns the new current context and is
named `sprintf("%09d", k)`, which is 9 characters, all decimal digits, of
value `k`; the counter becomes `k + 1`.  After any further calls other than
`close_symbol_context` the counter is still above `k`, and as long as it is
below `10^9` the name the next anonymous open makes from it differs. -/
theorem anonymous_context_name (T : Table) (l : List (Nat × CString)) (k : Nat)
    (hord : store_inorder T = some l) (hser : T.context_serial = (k : Int))
    (hk : k < 10 ^ 9) :
    ∃ T1 s, open_symbol_context none T = .ok (.SYM_NO_ERROR, T1) ∧
      T1.context_serial = (k : Int) + 1 ∧
      T1.syms[T.syms.length]? = some s ∧ s.name = some (sprintf_09d (k : Int)) ∧
      s.context = T1.current_context ∧ T1.current_context = some T.ctxs.length ∧
      (sprintf_09d (k : Int)).length = 9 ∧
      (∀ d ∈ sprintf_09d (k : Int), 48 ≤ d ∧ d ≤ 57) ∧
      decimal_value (sprintf_09d (k : Int)) = k ∧
      ∀ (cs : List Call) (codes : List symbol_error_t) (T2 : Table) (j : Nat),
        Call.close_context ∉ cs → run_calls T1 cs = .ok (codes, T2) →
        T2.context_serial = (j : Int) → j < 10 ^ 9 →
        k < j ∧ sprintf_09d (j : Int) ≠ sprintf_09d (k : Int) := by
  have hlen9 : (sprintf_09d (k : Int)).length = 9 := by
    rw [sprintf_09d_small k hk, decimal_digits_length]
  have hord0 : store_inorder { T with context_serial := T.context_serial + 1 } = some l := hord
  have hord1 := create_symbol_inorder (some (sprintf_09d T.context_serial)) hord0
  have hget := create_symbol_get (some (sprintf_09d T.context_serial))
    { T with context_serial := T.context_serial + 1 }
  obtain ⟨e, T2, hst, _, hp2, hcur2, hser2, hroot2, hclen2, hslen2, hctx2⟩ :=
    store_symbol_total hord1 hget rfl
      (create_symbol_fresh (some (sprintf_09d T.context_serial)) hord0)
  obtain ⟨c, ctx, t, hc, hx, _, _, _⟩ := store_inorder_shape hord
  obtain ⟨x1, hx1, _, _⟩ := hctx2 c ctx hx
  have hN : (create_symbol (some (sprintf_09d T.context_serial))
      { T with context_serial := T.context_serial + 1 }).1 = T.syms.length := rfl
  rw [hN] at hst hp2
  have hcur2' : T2.current_context = some c := by rw [hcur2]; exact hc
  have hopen : open_symbol_context none T = .ok (.SYM_NO_ERROR,
      { T2 with
        syms := T2.syms.set T.syms.length
          { ALLOC_DS_symbol with name := some (sprintf_09d T.context_serial)
                                 context := some T2.ctxs.length }
        ctxs := (T2.ctxs.set c { x1 with next := some T2.ctxs.length })
                  ++ [{ ALLOC_DS_context with prev := some c }]
        current_context := some T2.ctxs.length }) := by
    have hnot : ¬ 9 < (sprintf_09d T.context_serial).length := by
      rw [hser, hlen9]; decide
    simp only [open_symbol_context, hnot, if_false, hN, hst, add_context, hcur2', hp2, hx1]
    rfl
  have hlt : T.syms.length < T2.syms.length := by
    rw [hslen2]; simp [create_symbol]
  refine ⟨_, { ALLOC_DS_symbol with name := some (sprintf_09d T.context_serial),
                                      context := some T2.ctxs.length }, hopen, ?_,
    by simp [List.getElem?_set_self hlt], by rw [hser], ?_, ?_,
    hlen9, ?_, sprintf_09d_value k hk, ?_⟩
  · simp only [hser2, create_symbol, hser]
  · simp only [hclen2, create_symbol]
  · simp only [hclen2, create_symbol]
  · rw [sprintf_09d_small k hk]
    exact decimal_digits_range 9 k
  · intro cs codes T3 j hno hrun hj hj9
    have hmono := run_calls_serial cs hno hrun
    simp only [hser2, create_symbol, hser, hj] at hmono
    have hkj : k < j := by omega
    refine ⟨hkj, ?_⟩
    intro heq
    have h1 := sprintf_09d_value j hj9
    rw [heq, sprintf_09d_value k hk] at h1
    omega

theorem anonymous_context_name_witness :
    store_inorder serial_test_table = some [] ∧
    serial_test_table.context_serial = ((41 : Nat) : Int) ∧ 41 < 10 ^ 9 ∧
    ∃ T1 s, open_symbol_context none serial_test_table = .ok (.SYM_NO_ERROR, T1) ∧
      T1.context_serial = ((41 : Nat) : Int) + 1 ∧
      T1.syms[serial_test_table.syms.length]? = some s ∧
      s.name = some (sprintf_09d ((41 : Nat) : Int)) ∧
      s.context = T1.current_context ∧
      T1.current_context = some serial_test_table.ctxs.length ∧
      (sprintf_09d ((41 : Nat) : Int)).length = 9 ∧
      (∀ d ∈ sprintf_09d ((41 : Nat) : Int), 48 ≤ d ∧ d ≤ 57) ∧
      decimal_value (sprintf_09d ((41 : Nat) : Int)) = 41 ∧
      ∀ (cs : List Call) (codes : List symbol_error_t) (T2 : Table) (j : Nat),
        Call.close_context ∉ cs → run_calls T1 cs = .ok (codes, T2) →
        T2.context_serial = (j : Int) → j < 10 ^ 9 →
        41 < j ∧ sprintf_09d (j : Int) ≠ sprintf_09d ((41 : Nat) : Int) :=
  ⟨by decide, by decide, by decide,
    anonymous_context_name serial_test_table [] 41 (by decide) (by decide) (by decide)⟩

/-! ## The claims about closing, isolation and initialisation -/

/-- C11. Whenever `close_symbol_context` returns `SYM_NO_ERROR`, the current
context had a parent, that parent is the new current context, the serial
counter is 0, and the symbol arena, the context arena and the root pointer
are what they were: every symbol keeps its links and its nested context, and
every context its store and its links, so every store has the traversal it
had. -/
theorem close_symbol_context_success_effect (T T1 : Table)
    (h : close_symbol_context T = .ok (.SYM_NO_ERROR, T1)) :
    (∃ c cur pc, T.current_context = some c ∧ T.ctxs[c]? = some cur ∧ cur.prev = some pc ∧
      T1.current_context = some pc) ∧
    T1.context_serial = 0 ∧
    T1.syms = T.syms ∧ T1.ctxs = T.ctxs ∧ T1.root_context = T.root_context ∧
    ∀ c, ctx_inorder T1 c = ctx_inorder T c := by
  obtain ⟨c, cur, pc, hc, hx, hpc, hT1⟩ := close_ok h
  subst hT1
  exact ⟨⟨c, cur, pc, hc, hx, hpc, rfl⟩, rfl, rfl, rfl, rfl, fun _ => rfl⟩

theorem close_symbol_context_success_effect_witness :
    close_symbol_context reopen_test_table_2 = .ok (.SYM_NO_ERROR, reopen_test_table_3) ∧
    (∃ c cur pc, reopen_test_table_2.current_context = some c ∧
      reopen_test_table_2.ctxs[c]? = some cur ∧ cur.prev = some pc ∧
      reopen_test_table_3.current_context = some pc) ∧
    reopen_test_table_3.context_serial = 0 ∧
    reopen_test_table_3.syms = reopen_test_table_2.syms ∧
    reopen_test_table_3.ctxs = reopen_test_table_2.ctxs ∧
    reopen_test_table_3.root_context = reopen_test_table_2.root_context ∧
    ∀ c, ctx_inorder reopen_test_table_3 c = ctx_inorder reopen_test_table_2 c :=
  ⟨by decide, close_symbol_context_success_effect reopen_test_table_2 reopen_test_table_3
    (by decide)⟩

/-- C12. Whenever `close_symbol_context` returns `SYM_CONTEXT_ERROR`, the
table it returns is the table it was given: the current context, the serial
counter, the symbols and the contexts are all unchanged. -/
theorem close_symbol_context_failure_atomic (T T1 : Table)
    (h : close_symbol_context T = .ok (.SYM_CONTEXT_ERROR, T1)) :
    T1 = T ∧ T1.current_context = T.current_context ∧
    T1.context_serial = T.context_serial ∧ T1.syms = T.syms ∧ T1.ctxs = T.ctxs := by
  have hT := close_err h
  subst hT
  exact ⟨rfl, rfl, rfl, rfl, rfl⟩

theorem close_symbol_context_failure_atomic_witness :
    close_symbol_context failed_close_table
      = .ok (.SYM_CONTEXT_ERROR, table_of (close_symbol_context failed_close_table)) ∧
    table_of (close_symbol_context failed_close_table) = failed_close_table ∧
    (table_of (close_symbol_context failed_close_table)).current_context
      = failed_close_table.current_context ∧
    (table_of (close_symbol_context failed_close_table)).context_serial
      = failed_close_table.context_serial ∧
    (table_of (close_symbol_context failed_close_table)).syms = failed_close_table.syms ∧
    (table_of (close_symbol_context failed_close_table)).ctxs = failed_close_table.ctxs :=
  ⟨by decide, close_symbol_context_failure_atomic failed_close_table
    (table_of (close_symbol_context failed_close_table)) (by decide)⟩
/-- C13, as the code has it.  A successful `close_symbol_context` leaves the
context arena as it was, so the `next` field of the context that is now
current is what it was before the close; when the close directly follows an
`open_symbol_context` that returned `SYM_NO_ERROR`, the context the open
started from is current again and its `next` still points to the context just
closed. -/
theorem close_symbol_context_keeps_next (T1 T2 : Table)
    (h : close_symbol_context T1 = .ok (.SYM_NO_ERROR, T2)) :
    T2.ctxs = T1.ctxs ∧
    (∃ pc par, T2.current_context = some pc ∧ T1.ctxs[pc]? = some par ∧
      T2.ctxs[pc]? = some par) ∧
    ∀ (T : Table) (name : Option CString),
      open_symbol_context name T = .ok (.SYM_NO_ERROR, T1) →
      ∃ child par, T1.current_context = some child ∧
        T2.current_context = T.current_context ∧
        T2.current_context.bind (fun c => T2.ctxs[c]?) = some par ∧
        par.next = some child := by
  obtain ⟨c, cur, pc, hc, hx, hpc, hT2⟩ := close_ok h
  obtain ⟨c', cur', pc', par, sp, hc', hx', hpc', hpar, _⟩ := close_parent h
  rw [hc] at hc'
  injection hc' with hcc
  subst hcc
  rw [hx] at hx'
  injection hx' with hxx
  subst hxx
  rw [hpc] at hpc'
  injection hpc' with hpp
  subst hpp
  subst hT2
  refine ⟨rfl, ⟨pc, par, rfl, hpar, hpar⟩, ?_⟩
  intro T name hopen
  obtain ⟨p, T0, hadd, hcur0⟩ := open_ok_add hopen
  obtain ⟨p', s, c0, cur0, _, _, _, hc0, hx0, hT1⟩ := add_context_ok hadd
  have hc0len : c0 < T0.ctxs.length := getElem?_lt hx0
  subst hT1
  simp only at hc hx hpar ⊢
  injection hc with hc
  subst hc
  rw [List.getElem?_append_right (by simp)] at hx
  simp at hx
  subst hx
  simp only at hpc
  injection hpc with hpc
  subst hpc
  rw [List.getElem?_append_left (by simpa using hc0len)] at hpar
  simp [List.getElem?_set_self hc0len] at hpar
  subst hpar
  refine ⟨T0.ctxs.length, { cur0 with next := some T0.ctxs.length }, rfl,
    by rw [← hcur0, hc0], ?_, rfl⟩
  simp only [Option.bind]
  rw [List.getElem?_append_left (by simpa using hc0len)]
  simp [List.getElem?_set_self hc0len]

theorem close_symbol_context_keeps_next_witness :
    close_symbol_context reopen_test_table_1
      = .ok (.SYM_NO_ERROR, table_of (close_symbol_context reopen_test_table_1)) ∧
    (table_of (close_symbol_context reopen_test_table_1)).ctxs = reopen_test_table_1.ctxs ∧
    (∃ pc par, (table_of (close_symbol_context reopen_test_table_1)).current_context = some pc ∧
      reopen_test_table_1.ctxs[pc]? = some par ∧
      (table_of (close_symbol_context reopen_test_table_1)).ctxs[pc]? = some par) ∧
    ∀ (T : Table) (name : Option CString),
      open_symbol_context name T = .ok (.SYM_NO_ERROR, reopen_test_table_1) →
      ∃ child par, reopen_test_table_1.current_context = some child ∧
        (table_of (close_symbol_context reopen_test_table_1)).current_context
          = T.current_context ∧
        (table_of (close_symbol_context reopen_test_table_1)).current_context.bind
          (fun c => (table_of (close_symbol_context reopen_test_table_1)).ctxs[c]?)
          = some par ∧
        par.next = some child :=
  ⟨by decide, close_symbol_context_keeps_next reopen_test_table_1
    (table_of (close_symbol_context reopen_test_table_1)) (by decide)⟩

/-- C13 fails as stated: after storing "x", opening a context on it and
opening an anonymous context there (context 2), `close_symbol_context`
returns `SYM_NO_ERROR` and makes context 1 current, and the `next` field of
context 1 is not null: it points to context 2. -/
theorem close_symbol_context_next_counterexample :
    run_calls init_table
        [.store (ascii "x"), .open_context (some (ascii "x")), .open_context none]
      = .ok ([.SYM_NO_ERROR, .SYM_NO_ERROR, .SYM_NO_ERROR], anon_open_table) ∧
    anon_open_table.current_context = some 2 ∧
    close_symbol_context anon_open_table = .ok (.SYM_NO_ERROR, anon_test_table) ∧
    anon_test_table.current_context = some 1 ∧
    anon_test_table.ctxs[1]?.map (fun c => c.next) = some (some 2) ∧
    ¬ (anon_test_table.ctxs[1]?.map (fun c => c.next) = some none) := by
  decide

/-- C14. When `open_symbol_context` (with a name or without) returned
`SYM_NO_ERROR`, names were created and stored in the new context, and
`close_symbol_context` returned `SYM_NO_ERROR`: the context the open started
from is current again; `find_symbol` of any name returns there what it
returned in that context before the names were stored, which is no match when
the store of that context holds no symbol of the name; and the store of every
context other than the one that was opened has the traversal it had before
the names were stored. -/
theorem scope_isolation (T T1 T2 T3 : Table) (name : Option CString) (ns : List CString)
    (m : CString) (r : Option Nat)
    (h1 : open_symbol_context name T = .ok (.SYM_NO_ERROR, T1))
    (h2 : store_names T1 ns = .ok T2)
    (h3 : close_symbol_context T2 = .ok (.SYM_NO_ERROR, T3))
    (hbefore : find_symbol (some m) { T1 with current_context := T.current_context }
      = .ok r) :
    T3.current_context = T.current_context ∧
    find_symbol (some m) T3 = .ok r ∧
    (∀ c l, T.current_context = some c → ctx_inorder T1 c = some l →
      m ∉ l.map Prod.snd → find_symbol (some m) T3 = .ok none) ∧
    ∀ c l, T1.current_context ≠ some c → ctx_inorder T1 c = some l →
      ctx_inorder T3 c = some l := by
  obtain ⟨p, T0, hadd, hcur0⟩ := open_ok_add h1
  obtain ⟨p', s, c, cur, _, hp, _, hc0, hx0, hT1⟩ := add_context_ok hadd
  have hcM : c < T0.ctxs.length := getElem?_lt hx0
  have hcT : T.current_context = some c := by rw [← hcur0, hc0]
  have hord1 : store_inorder T1 = some [] := by
    rw [hT1]
    have := store_inorder_new_context (T0.syms.set p' { s with context := some T0.ctxs.length })
      (T0.ctxs.set c { cur with next := some T0.ctxs.length }) T0.root_context
      T0.context_serial { ALLOC_DS_context with prev := some c } rfl
    simpa using this
  have hcur1 : T1.current_context = some T0.ctxs.length := by rw [hT1]
  have hctxM : T1.ctxs[T0.ctxs.length]? = some { ALLOC_DS_context with prev := some c } := by
    rw [hT1]
    simp only
    rw [List.getElem?_append_right (by simp)]
    simp
  have hctxc : T1.ctxs[c]? = some { cur with next := some T0.ctxs.length } := by
    rw [hT1]
    simp only
    rw [List.getElem?_append_left (by simpa using hcM)]
    simp [List.getElem?_set_self hcM]
  obtain ⟨T2', l2, hrun, hord2, hasc2, hmem2, _, hfr⟩ :=
    store_names_spec ns hord1 (by unfold ascending; exact List.Pairwise.nil)
  rw [h2] at hrun
  injection hrun with hrun
  subst hrun
  obtain ⟨f1, _, _, _, f5, f6, f7, f8, _⟩ := hfr
  obtain ⟨c2, cur2, pc, hc2, hx2, hpc, hT3⟩ := close_ok h3
  rw [f1, hcur1] at hc2
  injection hc2 with hc2
  subst hc2
  obtain ⟨x1, hx1, hprev1, _⟩ := f7 _ _ hctxM
  rw [hx2] at hx1
  injection hx1 with hx1
  subst hx1
  rw [hprev1] at hpc
  injection hpc with hpc
  subst hpc
  have hcur3 : T3.current_context = some c := by rw [hT3]
  have hother : ∀ c1, T1.current_context ≠ some c1 → T3.ctxs[c1]? = T1.ctxs[c1]? := by
    intro c1 hne
    rw [hT3]
    exact f6 c1 hne
  have hag : LinksAgree T1.syms T3.syms := by
    intro a s0 h0
    refine ⟨s0, ?_, rfl, rfl, rfl⟩
    rw [hT3]
    simp only
    rw [f8 a (getElem?_lt h0) (by simp)]
    exact h0
  have hlen : T1.syms.length ≤ T3.syms.length := by rw [hT3]; exact f5
  have hne1 : T1.current_context ≠ some c := by
    rw [hcur1]; intro h; injection h with h; omega
  have hfind3 : find_symbol (some m) T3 = .ok r := by
    have hb : find_symbol_loop T1.syms m (T1.syms.length + 1)
        ({ cur with next := some T0.ctxs.length } : symbol_context_t).sym = .ok r := by
      simpa [find_symbol, hcT, hctxc] using hbefore
    simp only [find_symbol, hcur3, hother c hne1, hctxc]
    exact find_loop_congr m hag _ _ _ _ (by omega) hb
  refine ⟨by rw [hcur3, hcT], hfind3, ?_, ?_⟩
  · intro c1 l hc1 hl hm
    rw [hcT] at hc1
    injection hc1 with hc1
    subst hc1
    have hord : store_inorder ({ T1 with current_context := some c } : Table) = some l := by
      simpa [store_inorder] using hl
    obtain ⟨c', ctx, t, hc', hx', hs, htl, hh⟩ := store_inorder_shape hord
    subst htl
    have hfind := find_symbol_shape hc' hx' hs hh m
    rw [hcT] at hbefore
    rw [hbefore] at hfind
    cases hf : t.find m with
    | none => rw [hfind3, hfind, hf]
    | some a => exact absurd (List.mem_map.mpr ⟨(a, m), find_mem hf, rfl⟩) hm
  · intro c1 l hne hl
    simp only [ctx_inorder] at hl ⊢
    rw [hother c1 hne]
    cases hx1 : T1.ctxs[c1]? with
    | none => simp [hx1] at hl
    | some x1 =>
      simp only [hx1] at hl ⊢
      exact inorder_congr hag _ _ _ _ hlen hl

theorem scope_isolation_witness :
    open_symbol_context none init_table = .ok (.SYM_NO_ERROR, inner_test_table_1) ∧
    store_names inner_test_table_1 [ascii "inner1"] = .ok inner_test_table_2 ∧
    close_symbol_context inner_test_table_2 = .ok (.SYM_NO_ERROR, inner_test_table_3) ∧
    find_symbol (some (ascii "inner1"))
      { inner_test_table_1 with current_context := init_table.current_context } = .ok none ∧
    inner_test_table_3.current_context = init_table.current_context ∧
    find_symbol (some (ascii "inner1")) inner_test_table_3 = .ok none ∧
    (∀ c l, init_table.current_context = some c → ctx_inorder inner_test_table_1 c = some l →
      ascii "inner1" ∉ l.map Prod.snd →
      find_symbol (some (ascii "inner1")) inner_test_table_3 = .ok none) ∧
    ∀ c l, inner_test_table_1.current_context ≠ some c →
      ctx_inorder inner_test_table_1 c = some l → ctx_inorder inner_test_table_3 c = some l :=
  ⟨by decide, by decide, by decide, by decide,
    scope_isolation init_table inner_test_table_1 inner_test_table_2 inner_test_table_3 none
      [ascii "inner1"] (ascii "inner1") none (by decide) (by decide) (by decide) (by decide)⟩


/-- C15. On a table whose root pointer and current context are null,
`init_symbol_table` returns; the root pointer is then a new symbol named
"object" with name type `SYM_NO_NAME_TYPE`, assignment type
`SYM_NO_ASSIGN_TYPE` and scope `SYM_PUBLIC_SCOPE_TYPE`, whose nested context is
a new context with an empty store and null `prev` and `next`, and that
context is current.  Called again on the result, or on any table whose root
pointer or current context is set, it fails an assertion. -/
theorem init_symbol_table_effect (T : Table) (hr : T.root_context = none)
    (hc : T.current_context = none) :
    ∃ T1, init_symbol_table T = .ok T1 ∧
      T1.root_context = some T.syms.length ∧
      T1.syms[T.syms.length]? = some
        { name := some object_name, name_type := SYM_NO_NAME_TYPE,
          assign_type := SYM_NO_ASSIGN_TYPE, scope := SYM_PUBLIC_SCOPE_TYPE, const_val := 0,
          left := none, right := none, context := some T.ctxs.length } ∧
      T1.ctxs[T.ctxs.length]? = some { sym := none, prev := none, next := none } ∧
      T1.current_context = some T.ctxs.length ∧
      store_inorder T1 = some [] ∧
      init_symbol_table T1 = .error .assertion ∧
      ∀ T2 : Table, (T2.root_context ≠ none ∨ T2.current_context ≠ none) →
        init_symbol_table T2 = .error .assertion := by
  have hagain : ∀ T2 : Table, (T2.root_context ≠ none ∨ T2.current_context ≠ none) →
      init_symbol_table T2 = .error .assertion := by
    intro T2 h2
    unfold init_symbol_table
    cases hr2 : T2.root_context with
    | some x => rfl
    | none =>
      cases hc2 : T2.current_context with
      | some x => rfl
      | none => simp [hr2, hc2] at h2
  have hget : (T.syms ++ [{ ALLOC_DS_symbol with name := some object_name }])[T.syms.length]?
      = some { ALLOC_DS_symbol with name := some object_name } := by
    simp
  refine ⟨{ T with
      syms := (T.syms ++ [{ ALLOC_DS_symbol with name := some object_name }]).set T.syms.length
        { name := some object_name, name_type := SYM_NO_NAME_TYPE,
          assign_type := SYM_NO_ASSIGN_TYPE, scope := SYM_PUBLIC_SCOPE_TYPE, const_val := 0,
          left := none, right := none, context := some T.ctxs.length }
      ctxs := T.ctxs ++ [ALLOC_DS_context]
      root_context := some T.syms.length
      current_context := some T.ctxs.length }, ?_, rfl, ?_, ?_, rfl, ?_, ?_, hagain⟩
  · simp only [init_symbol_table, hr, hc, create_symbol, hget]
    rfl
  · simp
  · simp [ALLOC_DS_context]
  · exact store_inorder_new_context _ T.ctxs _ _ ALLOC_DS_context rfl
  · exact hagain _ (Or.inl (by simp))

theorem init_symbol_table_effect_witness :
    Table.uninit.root_context = none ∧ Table.uninit.current_context = none ∧
    ∃ T1, init_symbol_table Table.uninit = .ok T1 ∧
      T1.root_context = some Table.uninit.syms.length ∧
      T1.syms[Table.uninit.syms.length]? = some
        { name := some object_name, name_type := SYM_NO_NAME_TYPE,
          assign_type := SYM_NO_ASSIGN_TYPE, scope := SYM_PUBLIC_SCOPE_TYPE, const_val := 0,
          left := none, right := none, context := some Table.uninit.ctxs.length } ∧
      T1.ctxs[Table.uninit.ctxs.length]? = some { sym := none, prev := none, next := none } ∧
      T1.current_context = some Table.uninit.ctxs.length ∧
      store_inorder T1 = some [] ∧
      init_symbol_table T1 = .error .assertion ∧
      ∀ T2 : Table, (T2.root_context ≠ none ∨ T2.current_context ≠ none) →
        init_symbol_table T2 = .error .assertion :=
  ⟨rfl, rfl, init_symbol_table_effect Table.uninit rfl rfl⟩

/-- C16, as the code has it.  `store_symbol` of a symbol whose name is null
fails its assertion, whatever the table, and so does `store_symbol` of the
symbol `create_symbol(NULL)` makes; nothing is returned and nothing stored.
A symbol whose name is the empty string is not refused: stored fresh in a
store that is a search tree without that name, it is inserted with
`SYM_NO_ERROR` and `find_symbol("")` returns it. -/
theorem store_symbol_null_name_asserts (T : Table) (p : Nat) (s : symbol_t)
    (hp : T.syms[p]? = some s) (hn : s.name = none) :
    store_symbol (some p) T = .error .assertion ∧
    store_symbol (some (create_symbol none T).1) (create_symbol none T).2
      = .error .assertion ∧
    ∀ (T0 : Table) (l : List (Nat × CString)) (q : Nat) (s0 : symbol_t),
      store_inorder T0 = some l → ascending l → T0.syms[q]? = some s0 →
      s0.name = some [] → s0.left = none → s0.right = none →
      q ∉ l.map Prod.fst → [] ∉ l.map Prod.snd →
      ∃ T1, store_symbol (some q) T0 = .ok (.SYM_NO_ERROR, T1) ∧
        find_symbol (some []) T1 = .ok (some q) := by
  refine ⟨by simp [store_symbol, hp, hn], ?_, ?_⟩
  · simp [store_symbol, create_symbol, ALLOC_DS_symbol]
  · intro T0 l q s0 hord hasc hq hn0 hl hr hfresh hnew
    have hnew' : ∀ x ∈ l, x.2 ≠ [] := fun x hx hc => hnew (List.mem_map.mpr ⟨x, hx, hc⟩)
    obtain ⟨T1, l1, hst, _, _, _, hself, _⟩ :=
      store_fresh_spec hord hasc hq hn0 hl hr hfresh hnew'
    exact ⟨T1, hst, hself⟩

theorem store_symbol_null_name_asserts_witness :
    (create_symbol none init_table).2.syms[1]? = some ALLOC_DS_symbol ∧
    ALLOC_DS_symbol.name = none ∧
    store_symbol (some 1) (create_symbol none init_table).2 = .error .assertion ∧
    store_symbol (some (create_symbol none (create_symbol none init_table).2).1)
        (create_symbol none (create_symbol none init_table).2).2
      = .error .assertion ∧
    ∀ (T0 : Table) (l : List (Nat × CString)) (q : Nat) (s0 : symbol_t),
      store_inorder T0 = some l → ascending l → T0.syms[q]? = some s0 →
      s0.name = some [] → s0.left = none → s0.right = none →
      q ∉ l.map Prod.fst → [] ∉ l.map Prod.snd →
      ∃ T1, store_symbol (some q) T0 = .ok (.SYM_NO_ERROR, T1) ∧
        find_symbol (some []) T1 = .ok (some q) :=
  ⟨by decide, rfl, store_symbol_null_name_asserts (create_symbol none init_table).2 1
    ALLOC_DS_symbol (by decide) rfl⟩

/-- C16 fails as stated: the symbol 1 that `create_symbol("")` makes right
after `init_symbol_table` has the empty string for its name, and
`store_symbol` of it returns `SYM_NO_ERROR` and stores it: the store of the
root context then holds it and `find_symbol("")` returns it. -/
theorem store_symbol_empty_name_counterexample :
    empty_name_table.syms[1]?.map (fun s => s.name) = some (some []) ∧
    store_symbol (some 1) empty_name_table
      = .ok (.SYM_NO_ERROR, table_of (store_symbol (some 1) empty_name_table)) ∧
    store_inorder (table_of (store_symbol (some 1) empty_name_table)) = some [(1, [])] ∧
    find_symbol (some []) (table_of (store_symbol (some 1) empty_name_table))
      = .ok (some 1) := by
  decide

/-- C17, the code at the failing input.  After `init_symbol_table`, storing
"m" and "n" and opening a context on "n" with `SYM_NO_ERROR`, the current
context 1 is the nested context of symbol 2, named "n"; yet
`get_symbol_context` returns symbol 1, named "m", the first symbol of the
store of the parent context. -/
theorem get_symbol_context_returns_store_root :
    run_calls init_table
        [.store (ascii "m"), .store (ascii "n"), .open_context (some (ascii "n"))]
      = .ok ([.SYM_NO_ERROR, .SYM_NO_ERROR, .SYM_NO_ERROR], owner_test_table) ∧
    owner_test_table.current_context = some 1 ∧
    owner_test_table.syms[2]?.map (fun s => (s.name, s.context))
      = some (some (ascii "n"), some 1) ∧
    owner_test_table.syms[1]?.map (fun s => (s.name, s.context))
      = some (some (ascii "m"), none) ∧
    get_symbol_context owner_test_table = .ok (some 1) := by
  decide

/-! ## The claims about the resolver -/

/-- C18, the code at the failing input.  In the table with contexts root, A
and B, where B is current, the store of B is empty and the store of A holds
"x", `open_resolver("x")` searches nothing: it returns no value and leaves
the resolver as it was, with nothing pushed. -/
theorem open_resolver_returns_nothing :
    run_calls init_table
        [.store (ascii "a"), .open_context (some (ascii "a")), .store (ascii "x"),
         .store (ascii "b"), .open_context (some (ascii "b"))]
      = .ok ([.SYM_NO_ERROR, .SYM_NO_ERROR, .SYM_NO_ERROR, .SYM_NO_ERROR, .SYM_NO_ERROR],
          resolver_test_table) ∧
    resolver_test_table.current_context = some 2 ∧
    ctx_inorder resolver_test_table 2 = some [] ∧
    ctx_inorder resolver_test_table 1 = some [(3, ascii "b"), (2, ascii "x")] ∧
    open_resolver (some (ascii "x")) Resolver.idle = (.nothing, Resolver.idle) := by
  decide

/-- C19, the code at the failing input.  In the table where the current
store holds "x" (symbol 2), whose nested context 2 holds "y" (symbol 3),
`open_resolver("x")` and `resolve_symbol("y")` return no value and push
nothing, and `close_resolver` returns no value either. -/
theorem resolve_symbol_returns_nothing :
    find_symbol (some (ascii "x")) reopen_test_table_3 = .ok (some 2) ∧
    reopen_test_table_3.syms[2]?.map (fun s => s.context) = some (some 2) ∧
    ctx_inorder reopen_test_table_3 2 = some [(3, ascii "y")] ∧
    open_resolver (some (ascii "x")) Resolver.idle = (.nothing, Resolver.idle) ∧
    resolve_symbol (some (ascii "y")) Resolver.idle = (.nothing, Resolver.idle) ∧
    close_resolver Resolver.idle = .ok (.nothing, Resolver.idle) := by
  decide

/-- C20, the code at the failing inputs.  Whatever symbols the two stacks
hold, one or many, `close_resolver` looks at none of them: it pops
`symbol_stack` until it is empty, leaves `sym_stack` as it is, sets its
`current_context` to null and returns no value, neither the symbol matched
nor null.  So it does after `open_resolver` alone. -/
theorem close_resolver_returns_nothing (ps qs : List Nat) (cc : Option Nat) :
    close_resolver
        { sym_stack := ps.map some, symbol_stack := qs.map some, current_context := cc }
      = .ok (.nothing,
          { sym_stack := ps.map some, symbol_stack := [], current_context := none }) ∧
    close_resolver (open_resolver (some (ascii "x")) Resolver.idle).2
      = .ok (.nothing, Resolver.idle) := by
  refine ⟨?_, by decide⟩
  simp only [close_resolver, clear_sym_stack_spec]

/-! ## The claims about the stack of the resolver, totality and the context chain -/

/-- C22. On a current store that is a finite tree of named symbols,
`store_symbol` of an allocated symbol with a name returns, with
`SYM_NO_ERROR` or `SYM_EXISTS`; it returns `SYM_NO_ERROR` exactly when the
search of `find_symbol` for the name, which walks the same path, finds no
match, and, when the store is a search tree, exactly when no symbol of the
store has the name.  On every table and for every argument, `store_symbol`
neither reaches the `fatal_error` after its loop nor returns `SYM_ERROR`. -/
theorem store_symbol_total_codes (T : Table) (l : List (Nat × CString)) (p : Nat)
    (s : symbol_t) (nm : CString) (hord : store_inorder T = some l)
    (hp : T.syms[p]? = some s) (hn : s.name = some nm) :
    (∃ e T1, store_symbol (some p) T = .ok (e, T1) ∧
      (e = .SYM_NO_ERROR ∨ e = .SYM_EXISTS) ∧
      (e = .SYM_NO_ERROR ↔ find_symbol (some nm) T = .ok none) ∧
      (ascending l → (e = .SYM_NO_ERROR ↔ nm ∉ l.map Prod.snd))) ∧
    ∀ (T0 : Table) (q : Option Nat),
      store_symbol q T0 ≠ .error .fatal ∧
      ∀ T1, store_symbol q T0 ≠ .ok (.SYM_ERROR, T1) := by
  refine ⟨?_, store_symbol_never_invalid⟩
  obtain ⟨c, ctx, t, hc, hx, hs, htl, hh⟩ := store_inorder_shape hord
  subst htl
  have hfind := find_symbol_shape hc hx hs hh nm
  simp only [store_symbol, hp, hn, hc, hx]
  cases hrt : ctx.sym with
  | none =>
    rw [hrt] at hs
    have hleaf := shape_none hs
    subst hleaf
    refine ⟨_, _, rfl, Or.inl rfl, ?_, ?_⟩
    · simp [hfind, Tree.find]
    · intro _
      simp [Tree.toList]
  | some r =>
    rw [hrt] at hs
    obtain ⟨hex, hins⟩ := store_loop_spec T.syms p nm t _ r hs (Nat.le_succ_of_le hh)
    cases hf : t.find nm with
    | some a =>
      simp only [hex a hf]
      refine ⟨_, _, rfl, Or.inr rfl, ?_, ?_⟩
      · simp [hfind, hf]
      · intro _
        have hmem : nm ∈ t.toList.map Prod.snd :=
          List.mem_map.mpr ⟨(a, nm), find_mem hf, rfl⟩
        simp [hmem]
    | none =>
      obtain ⟨b, sb, sb', _, _, _, hloop, _⟩ := hins hf
      simp only [hloop]
      refine ⟨_, _, rfl, Or.inl rfl, ?_, ?_⟩
      · simp [hfind, hf]
      · intro hasc
        have hnot : nm ∉ t.toList.map Prod.snd := by
          intro hmem
          obtain ⟨x, hx1, hx2⟩ := List.mem_map.mp hmem
          exact (find_none_iff hasc).mp hf x hx1 hx2
        simp [hnot]

set_option maxRecDepth 100000 in
theorem store_symbol_total_codes_witness :
    store_inorder fresh_test_table = some resolve_test_inorder ∧
    fresh_test_table.syms[2]?.map (fun s => s.name) = some (some (ascii "qwer")) ∧
    (∃ e T1, store_symbol (some 2) fresh_test_table = .ok (e, T1) ∧
      (e = .SYM_NO_ERROR ∨ e = .SYM_EXISTS) ∧
      (e = .SYM_NO_ERROR ↔ find_symbol (some (ascii "qwer")) fresh_test_table = .ok none) ∧
      (ascending resolve_test_inorder →
        (e = .SYM_NO_ERROR ↔ ascii "qwer" ∉ resolve_test_inorder.map Prod.snd))) ∧
    ∀ (T0 : Table) (q : Option Nat),
      store_symbol q T0 ≠ .error .fatal ∧
      ∀ T1, store_symbol q T0 ≠ .ok (.SYM_ERROR, T1) :=
  ⟨by decide, by decide,
    store_symbol_total_codes fresh_test_table resolve_test_inorder 2
      { name := some (ascii "qwer"), name_type := 0, assign_type := 0, scope := 0,
        const_val := 0, left := some 5, right := some 3, context := none }
      (ascii "qwer") (by decide) (by decide) rfl⟩

/-- C23. In every table that a sequence of `create_symbol`, `store_symbol`,
`open_symbol_context` and `close_symbol_context` calls reaches from the table
of `init_symbol_table` without a fault: the current context is allocated;
following `prev` from it ends, in no more steps than there are contexts, at
context 0, the nested context of the root symbol and the only context whose
`prev` is null; every other context has for `prev` an older context whose
store is not empty and has an allocated, named first symbol; so
`close_symbol_context` returns whenever the current context is not context 0,
and fails its assertion when it is. -/
theorem context_chain_invariant (steps : List Step) (T : Table)
    (h : run_steps init_table steps = .ok T) :
    (∃ c chain, T.current_context = some c ∧ c < T.ctxs.length ∧
      context_chain T = some chain ∧ chain.head? = some c ∧ chain.getLast? = some 0) ∧
    (T.root_context = some 0 ∧ ∃ rs, T.syms[0]? = some rs ∧ rs.context = some 0) ∧
    (∀ (i : Nat) (x : symbol_context_t), T.ctxs[i]? = some x → (x.prev = none ↔ i = 0)) ∧
    (∀ (i : Nat) (x : symbol_context_t), T.ctxs[i]? = some x → i ≠ 0 →
      ∃ j par r s nm, x.prev = some j ∧ j < i ∧ T.ctxs[j]? = some par ∧ par.sym = some r ∧
        T.syms[r]? = some s ∧ s.name = some nm) ∧
    (T.current_context ≠ some 0 → ∃ e T1, close_symbol_context T = .ok (e, T1)) ∧
    (T.current_context = some 0 → close_symbol_context T = .error .assertion) := by
  have hinv : ChainInv T := chainInv_steps steps h chainInv_init
  obtain ⟨c, chain, hc, hch, hhead, hlast⟩ := chainInv_chain hinv
  obtain ⟨hdef, hroot⟩ := chainInv_close_defined hinv
  obtain ⟨⟨c', hc', hclen⟩, h2, h3, h4, h5⟩ := hinv
  rw [hc] at hc'
  injection hc' with hcc
  subst hcc
  refine ⟨⟨c, chain, hc, hclen, hch, hhead, hlast⟩, h5, h2, ?_, hdef, hroot⟩
  intro i x hx hi
  cases hp : x.prev with
  | none => exact absurd ((h2 i x hx).mp hp) hi
  | some j =>
    obtain ⟨hlt, par, r, hpar, hr⟩ := h3 i x j hx hp
    obtain ⟨s, nm, hs, hn⟩ := h4 j par r hpar hr
    exact ⟨j, par, r, s, nm, rfl, hlt, hpar, hr, hs, hn⟩

theorem context_chain_invariant_witness :
    run_steps init_table chain_test_steps = .ok chain_test_table ∧
    context_chain chain_test_table = some [1, 0] ∧
    (∃ c chain, chain_test_table.current_context = some c ∧ c < chain_test_table.ctxs.length ∧
      context_chain chain_test_table = some chain ∧ chain.head? = some c ∧
      chain.getLast? = some 0) ∧
    (chain_test_table.root_context = some 0 ∧
      ∃ rs, chain_test_table.syms[0]? = some rs ∧ rs.context = some 0) ∧
    (∀ (i : Nat) (x : symbol_context_t), chain_test_table.ctxs[i]? = some x →
      (x.prev = none ↔ i = 0)) ∧
    (∀ (i : Nat) (x : symbol_context_t), chain_test_table.ctxs[i]? = some x → i ≠ 0 →
      ∃ j par r s nm, x.prev = some j ∧ j < i ∧ chain_test_table.ctxs[j]? = some par ∧
        par.sym = some r ∧ chain_test_table.syms[r]? = some s ∧ s.name = some nm) ∧
    (chain_test_table.current_context ≠ some 0 →
      ∃ e T1, close_symbol_context chain_test_table = .ok (e, T1)) ∧
    (chain_test_table.current_context = some 0 →
      close_symbol_context chain_test_table = .error .assertion) :=
  ⟨by decide, by decide,
    context_chain_invariant chain_test_steps chain_test_table (by decide)⟩

end Plang
